import Mathlib

/-!
Verification of the two-level LDA Gibbs sampler (`infer_two_levels.py` and
`gibbs.py`) against its natural-language specification.

Machine integers are modelled as `ℤ`/`ℕ` (the counts involved stay far from
the 16/32/64-bit bounds the code relies on), numpy float arithmetic as exact
`ℚ` arithmetic, numpy arrays as lists or as total functions `ℕ → ℤ`, and the
seeded numpy RNG as a seed-indexed stream of uniform draws in `[0,1)`.
-/

set_option autoImplicit false

/-! ### Generic list helpers -/

/-- Number of occurrences of `a` in `l` (the counting that backs the
role/theme/topic-word count invariants). -/
def nOcc {α : Type} [DecidableEq α] (a : α) : List α → ℕ
  | [] => 0
  | b :: l => (if b = a then 1 else 0) + nOcc a l

theorem nOcc_append {α : Type} [DecidableEq α] (a : α) (l₁ l₂ : List α) :
    nOcc a (l₁ ++ l₂) = nOcc a l₁ + nOcc a l₂ := by
  induction l₁ with
  | nil => simp [nOcc]
  | cons b l ih => simp [nOcc, ih]; omega

theorem getD_set_eq {α : Type} (l : List α) (i : ℕ) (v d : α) (h : i < l.length) :
    (l.set i v).getD i d = v := by
  induction l generalizing i with
  | nil => simp at h
  | cons b l ih =>
    cases i with
    | zero => rfl
    | succ j => simpa [List.set, List.getD] using ih j (by simpa using h)

theorem getD_set_ne {α : Type} (l : List α) (i : ℕ) (v : α) (j : ℕ) (d : α)
    (h : j ≠ i) : (l.set i v).getD j d = l.getD j d := by
  induction l generalizing i j with
  | nil => rfl
  | cons b l ih =>
    cases i with
    | zero =>
      cases j with
      | zero => exact absurd rfl h
      | succ j' => rfl
    | succ i' =>
      cases j with
      | zero => rfl
      | succ j' =>
        simpa [List.set, List.getD] using ih i' j' (fun hh => h (by rw [hh]))

theorem getD_map_lt {α β : Type} (f : α → β) (l : List α) (i : ℕ) (d : β) (d' : α)
    (h : i < l.length) : (l.map f).getD i d = f (l.getD i d') := by
  induction l generalizing i with
  | nil => simp at h
  | cons b l ih =>
    cases i with
    | zero => rfl
    | succ j => simpa [List.getD] using ih j (by simpa using h)

theorem getD_append_lt {α : Type} (l₁ l₂ : List α) (i : ℕ) (d : α)
    (h : i < l₁.length) : (l₁ ++ l₂).getD i d = l₁.getD i d := by
  induction l₁ generalizing i with
  | nil => simp at h
  | cons b l ih =>
    cases i with
    | zero => rfl
    | succ j => simpa [List.getD] using ih j (by simpa using h)

theorem getD_append_ge {α : Type} (l₁ l₂ : List α) (i : ℕ) (d : α)
    (h : l₁.length ≤ i) : (l₁ ++ l₂).getD i d = l₂.getD (i - l₁.length) d := by
  induction l₁ generalizing i with
  | nil => simp
  | cons b l ih =>
    cases i with
    | zero => simp at h
    | succ j => simpa [List.getD] using ih j (by simpa using h)

theorem nOcc_set_key {α : Type} [DecidableEq α] (l : List α) (i : ℕ) (v : α)
    (a d : α) (h : i < l.length) :
    nOcc a (l.set i v) + (if l.getD i d = a then 1 else 0)
      = nOcc a l + (if v = a then 1 else 0) := by
  induction l generalizing i with
  | nil => simp at h
  | cons b l ih =>
    cases i with
    | zero => simp [nOcc, List.getD]; omega
    | succ j =>
      have := ih j (by simpa using h)
      simp only [List.set, nOcc, List.getD_cons_succ] at *
      omega

theorem sumMap_set {α : Type} (l : List α) (i : ℕ) (v : α) (f : α → ℤ) (d : α)
    (h : i < l.length) :
    ((l.set i v).map f).sum + f (l.getD i d) = (l.map f).sum + f v := by
  induction l generalizing i with
  | nil => simp at h
  | cons b l ih =>
    cases i with
    | zero => simp [List.getD]; ring
    | succ j =>
      have := ih j (by simpa using h)
      simp only [List.set, List.map, List.sum_cons, List.getD_cons_succ] at *
      omega

/-- `foldl` over `List.range (n+1)` peels the last index. -/
theorem foldl_range_succ {β : Type} (f : β → ℕ → β) (n : ℕ) (b : β) :
    (List.range (n + 1)).foldl f b = f ((List.range n).foldl f b) n := by
  rw [List.range_succ, List.foldl_append]
  rfl

/-- A `foldl` preserves any invariant its step preserves. -/
theorem foldl_invariant {α β : Type} (Inv : β → Prop) (f : β → α → β)
    (l : List α) (b : β) (hstep : ∀ b' a, a ∈ l → Inv b' → Inv (f b' a))
    (hb : Inv b) : Inv (l.foldl f b) := by
  induction l generalizing b with
  | nil => exact hb
  | cons x l ih =>
    exact ih (f b x) (fun b' a ha => hstep b' a (List.mem_cons_of_mem x ha))
      (hstep b x (List.mem_cons_self x l) hb)

/-! ### Data model (`Character`, `Book` from `infer_two_levels.py`) -/

/-- A character: parallel arrays of word-type ids (`wordtypes`, numpy int32)
and current topic assignments (`topicassigns`, numpy int16), plus the
per-role summary counts (`rolecounts`, numpy int16).  The Python object also
stores its parent book and `numthemes`; the book is threaded explicitly and
`numthemes` is passed as a parameter. -/
structure Character where
  name : String
  wordtypes : List ℕ
  topicassigns : List ℕ
  rolecounts : List ℤ
deriving Repr, DecidableEq, Inhabited

/-- `self.numwords = len(wordseq)`: the number of (in-vocabulary) tokens. -/
def Character.numwords (c : Character) : ℕ := c.wordtypes.length

/-- A book: per-theme summary counts (`themecounts`, numpy int32), the list of
characters it owns, and `totalwords`, the sum of its characters' `numwords`. -/
structure Book where
  name : String
  themecounts : List ℤ
  characters : List Character
  totalwords : ℕ
deriving Repr, DecidableEq, Inhabited

/-- `Book.increment_decrement`: `themecounts[topicnum] += change`. -/
def Book.increment_decrement (b : Book) (topicnum : ℕ) (change : ℤ) : Book :=
  { b with themecounts :=
      b.themecounts.set topicnum (b.themecounts.getD topicnum 0 + change) }

/-- `Character.assignword(wordidx, newtopicnum)`: overwrite the assignment and
cascade the −1 for the old topic and the +1 for the new topic to the book's
theme counts (topic < numthemes) or the character's role counts (otherwise).
The Python method mutates the character and (through its back-reference) the
book; here the updated pair is returned. -/
def Character.assignword (numthemes : ℕ) (self : Character) (book : Book)
    (wordidx newtopicnum : ℕ) : Character × Book :=
  let existingtopic := self.topicassigns.getD wordidx 0
  let self1 := { self with topicassigns := self.topicassigns.set wordidx newtopicnum }
  let step1 : Character × Book :=
    if existingtopic < numthemes then
      (self1, book.increment_decrement existingtopic (-1))
    else
      let rolenum := existingtopic - numthemes
      ({ self1 with rolecounts :=
          self1.rolecounts.set rolenum (self1.rolecounts.getD rolenum 0 - 1) }, book)
  if newtopicnum < numthemes then
    (step1.1, step1.2.increment_decrement newtopicnum 1)
  else
    let rolenum := newtopicnum - numthemes
    ({ step1.1 with rolecounts :=
        step1.1.rolecounts.set rolenum (step1.1.rolecounts.getD rolenum 0 + 1) }, step1.2)

/-! ### Load-time record handling (`load_characters`, `get_vocab`) -/

/-- Outcome of `load_characters` on one input line. -/
inductive LineResult where
  /-- `fields[0]` or `fields[1]` raises `IndexError`: the whole load aborts. -/
  | crash : LineResult
  /-- Fewer than 10 in-vocabulary tokens: silently not loaded. -/
  | skippedShort : LineResult
  /-- `len(wordtypes) > 32700`: a warning is printed and the record dropped. -/
  | skippedLong : LineResult
  /-- The character is loaded into the book named by the text before the
  first `|` of the characterID (the whole ID when it has no `|`). -/
  | loaded (bookname : List Char) (wordids : List ℕ) : LineResult
deriving Repr, DecidableEq

/-- One line of the `load_characters` loop (source lines 190–217): take the
whitespace fields, look every word up in the lexicon, and apply the length
thresholds.  `lexicon` is the word → index dictionary; Python's
`charname.split('|')[0]` — the text before the first `'|'`, the whole name
when there is none — is rendered as a `takeWhile` over the characters. -/
def processLine (lexicon : String → Option ℕ) (fields : List String) : LineResult :=
  match fields with
  | [] => .crash
  | [_] => .crash
  | charname :: _label :: words =>
    let wordtypes := words.filterMap lexicon
    if wordtypes.length > 32700 then .skippedLong
    else if wordtypes.length > 9 then
      .loaded (charname.toList.takeWhile (fun c => c != '|')) wordtypes
    else .skippedShort

/-- One line of the `get_vocab` pre-pass (source lines 44–49): `fields[0]` and
`fields[1]` are read unconditionally, then each distinct word of the rest is
counted once.  `none` models the `IndexError` on a line with < 2 fields. -/
def vocabLineWords (fields : List String) : Option (List String) :=
  match fields with
  | [] => none
  | [_] => none
  | _ :: _ :: words => some words.dedup

/-! ### α rescaling (`__main__`, source lines 389–401) -/

/-- The coordinator's α rescaling: divide the column sums by their mean,
clamp every entry into `[0.5, 2]` with the source's two-branch `if`, and
scale by `alphamean`. -/
def rescaleAlpha (newalphaInit : List ℚ) (alphamean : ℚ) : List ℚ :=
  let meanval := newalphaInit.sum / (newalphaInit.length : ℚ)
  let scaled := newalphaInit.map (fun x => x / meanval)
  let clamped := scaled.map (fun x => if x > 2 then 2 else if x < 1/2 then 1/2 else x)
  clamped.map (fun x => x * alphamean)

/-- The guard around the rescaling: the source nests
`if iteration % 20 == 0:` … `if iteration > 99 and iteration % 20 == 0:`. -/
def rescaleTriggered (iteration : ℕ) : Prop :=
  iteration % 20 = 0 ∧ (99 < iteration ∧ iteration % 20 = 0)

instance (i : ℕ) : Decidable (rescaleTriggered i) := by
  unfold rescaleTriggered; infer_instance

/-- Spec rendering of the same rescaling: `α' = N / mean(N)` clamped to the
interval `[0.5, 2.0]` (as `max`/`min`), then `α ← α' · α_mean`. -/
def specRescale (bigN : List ℚ) (alphamean : ℚ) : List ℚ :=
  bigN.map (fun x => max (1/2) (min 2 (x / (bigN.sum / (bigN.length : ℚ)))) * alphamean)

/-! ### Claims C6, C7, C8 -/

theorem filterMap_replicate_some {α β : Type} (f : α → Option β) (a : α) (b : β)
    (hf : f a = some b) (n : ℕ) :
    (List.replicate n a).filterMap f = List.replicate n b := by
  induction n with
  | zero => rfl
  | succ m ih => simp [List.replicate_succ, List.filterMap_cons, hf, ih]

/-- The source's two-branch clamp is the clamp of the spec's interval. -/
theorem clamp_if_eq (y : ℚ) :
    (if y > 2 then 2 else if y < 1/2 then 1/2 else y) = max (1/2) (min 2 y) := by
  simp only [max_def, min_def]
  split_ifs <;> linarith

/-- C8: every 20 iterations past iteration 99 the coordinator rescales α by
`α'[k] = N[k]/mean(N)` clamped to `[0.5, 2.0]` and then `α ← α'·α_mean`; in
particular `N = [1,1000,1,1]` yields `α_mean · [0.5, 2.0, 0.5, 0.5]`. -/
theorem claim_c8_alpha_rescaling (bigN : List ℚ) (alphamean : ℚ) (i : ℕ) :
    (rescaleTriggered i ↔ 99 < i ∧ i % 20 = 0) ∧
    rescaleAlpha bigN alphamean = specRescale bigN alphamean ∧
    rescaleAlpha [1, 1000, 1, 1] alphamean
      = [alphamean * (1/2), alphamean * 2, alphamean * (1/2), alphamean * (1/2)] := by
  refine ⟨by unfold rescaleTriggered; tauto, ?_, ?_⟩
  · unfold rescaleAlpha specRescale
    simp only [List.map_map]
    refine List.map_congr_left (fun x _ => ?_)
    simp only [Function.comp_apply, clamp_if_eq]
  · norm_num [rescaleAlpha]
    norm_num [mul_comm]

/-- C6 counterexample: a character with 32701 in-vocabulary tokens — inside
the claim's supposed acceptance interval `[10, 32767]` — is skipped with a
warning, because the source's threshold is 32700, not 32767. -/
theorem claim_c6_counterexample :
    processLine (fun w => if w = "a" then some 0 else none)
        ("b|c" :: "lbl" :: List.replicate 32701 "a") = .skippedLong
      ∧ 10 ≤ 32701 ∧ 32701 ≤ 32767 := by
  have h : (List.replicate 32701 "a").filterMap
        (fun w => if w = "a" then some (0 : ℕ) else none)
      = List.replicate 32701 0 := filterMap_replicate_some _ _ _ (by simp) _
  refine ⟨?_, by norm_num, by norm_num⟩
  simp only [processLine, h, List.length_replicate]
  norm_num

/-- C6 amended: a record (with ≥ 3 fields) is loaded exactly when its
in-vocabulary token count lies in `[10, 32700]`; above 32700 it is skipped
with a printed warning, below 10 silently. -/
theorem claim_c6_skip_thresholds (lexicon : String → Option ℕ)
    (charname label : String) (words : List String) :
    (processLine lexicon (charname :: label :: words)
        = LineResult.loaded (charname.toList.takeWhile (fun c => c != '|'))
            (words.filterMap lexicon)
      ↔ 10 ≤ (words.filterMap lexicon).length ∧ (words.filterMap lexicon).length ≤ 32700) ∧
    (processLine lexicon (charname :: label :: words) = .skippedLong
      ↔ 32700 < (words.filterMap lexicon).length) ∧
    (processLine lexicon (charname :: label :: words) = .skippedShort
      ↔ (words.filterMap lexicon).length < 10) := by
  simp only [processLine]
  split_ifs with h1 h2 <;> simp <;> omega

/-- C7 counterexample: a one-field line makes `load_characters` (and
`get_vocab`) read `fields[1]` and raise `IndexError` — the load aborts rather
than skipping the record — and a record whose characterID has no `'|'` is not
skipped either: it is loaded, with the whole ID as the book name. -/
theorem claim_c7_counterexample :
    processLine (fun _ => none) ["x|y"] = .crash ∧
    vocabLineWords ["x|y"] = none ∧
    processLine (fun w => if w = "a" then some 0 else none)
        ("nobar" :: "lbl" :: List.replicate 10 "a")
      = .loaded "nobar".toList (List.replicate 10 0) := by
  have h : (List.replicate 10 "a").filterMap
        (fun w => if w = "a" then some (0 : ℕ) else none)
      = List.replicate 10 0 := filterMap_replicate_some _ _ _ (by simp) _
  refine ⟨rfl, rfl, ?_⟩
  simp only [processLine, h, List.length_replicate]
  norm_num
  decide

/-- C7 amended: a line with 0 or 1 whitespace fields raises `IndexError`
(aborting the load, in both `load_characters` and the `get_vocab` pre-pass);
a line with exactly 2 fields contributes no tokens and is skipped as too
short; a characterID lacking `'|'` does not cause a skip — the record is
loaded under a book named by the entire characterID. -/
theorem claim_c7_malformed (lexicon : String → Option ℕ) (a b : String) :
    processLine lexicon [] = .crash ∧
    processLine lexicon [a] = .crash ∧
    processLine lexicon [a, b] = .skippedShort ∧
    vocabLineWords [] = none ∧
    vocabLineWords [a] = none ∧
    processLine (fun w => if w = "a" then some 0 else none)
        ("nobar" :: "lbl" :: List.replicate 10 "a")
      = .loaded "nobar".toList (List.replicate 10 0) := by
  have h : (List.replicate 10 "a").filterMap
        (fun w => if w = "a" then some (0 : ℕ) else none)
      = List.replicate 10 0 := filterMap_replicate_some _ _ _ (by simp) _
  refine ⟨rfl, rfl, by simp [processLine], rfl, rfl, ?_⟩
  simp only [processLine, h, List.length_replicate]
  norm_num
  decide

/-! ### The topic–word matrix, column sums, and the sampler kernel
(`gibbs.onepass`, source lines 40–89) -/

/-- A numpy 2-D integer array (`twmatrix`), as a total function on indices. -/
abbrev Mat := ℕ → ℕ → ℤ

/-- A numpy 1-D integer array (`topicnormalizer`). -/
abbrev Vec := ℕ → ℤ

/-- In-place `m[w, k] += change` on a numpy matrix. -/
def matAdjust (m : Mat) (w k : ℕ) (change : ℤ) : Mat :=
  fun w' k' => if w' = w ∧ k' = k then m w' k' + change else m w' k'

/-- In-place `v[k] += change` on a numpy vector. -/
def vecAdjust (v : Vec) (k : ℕ) (change : ℤ) : Vec :=
  fun k' => if k' = k then v k' + change else v k'

/-- `np.sum(m, axis = 0)[k]` for a matrix with `W` rows. -/
def colSum (W : ℕ) (m : Mat) (k : ℕ) : ℤ := ∑ w ∈ Finset.range W, m w k

/-- Source lines 43–69: copy the theme and role counts, decrement the slot of
the current topic `z` (theme slot when `z < numthemes`, else role slot
`z − numthemes`), divide by `book.totalwords` resp. `char.numwords`,
concatenate (`np.append`), decrement `twmatrix[w, z]` and
`topicnormalizer[z]` in place, and form the unnormalized distribution
`(topicarray + alpha) * (wordarray + beta) / topicnormalizer`. -/
def tokenDistribution (numthemes : ℕ) (totalwords numwords : ℕ)
    (themecounts rolecounts : List ℤ) (twmatrix : Mat) (topicnormalizer : Vec)
    (w z : ℕ) (alpha : ℕ → ℚ) (beta : ℚ) : ℕ → ℚ :=
  let themearray :=
    if z < numthemes then themecounts.set z (themecounts.getD z 0 - 1) else themecounts
  let rolearray :=
    if z < numthemes then rolecounts
    else rolecounts.set (z - numthemes) (rolecounts.getD (z - numthemes) 0 - 1)
  let rolearrayQ := rolearray.map (fun x : ℤ => (x : ℚ) / (numwords : ℚ))
  let themearrayQ := themearray.map (fun x : ℤ => (x : ℚ) / (totalwords : ℚ))
  let topicarray := themearrayQ ++ rolearrayQ
  let wordarray : ℕ → ℤ := matAdjust twmatrix w z (-1) w
  let normalizer1 : Vec := vecAdjust topicnormalizer z (-1)
  fun k => (topicarray.getD k 0 + alpha k)
      * (((wordarray k : ℚ) + beta) / (normalizer1 k : ℚ))

/-- Source line 70: `probabilities = distribution / np.sum(distribution)`.
The distribution array has length `numtopics` (the source asserts
`len(probabilities) == numtopics`), so `np.sum` ranges over it. -/
def tokenProbs (numthemes numtopics : ℕ) (totalwords numwords : ℕ)
    (themecounts rolecounts : List ℤ) (twmatrix : Mat) (topicnormalizer : Vec)
    (w z : ℕ) (alpha : ℕ → ℚ) (beta : ℚ) : ℕ → ℚ :=
  fun k => tokenDistribution numthemes totalwords numwords themecounts rolecounts
        twmatrix topicnormalizer w z alpha beta k
      / ∑ j ∈ Finset.range numtopics,
          tokenDistribution numthemes totalwords numwords themecounts rolecounts
            twmatrix topicnormalizer w z alpha beta j

/-! Spec rendering of the per-token conditional (spec §4.1). -/

/-- Spec: `θ' = θ_b` with the theme slot `z` decremented when `z < T`. -/
def specTheta (T : ℕ) (theta : ℕ → ℤ) (z : ℕ) : ℕ → ℤ :=
  fun t => if z < T ∧ t = z then theta t - 1 else theta t

/-- Spec: `ρ' = ρ_c` with the role slot `z − T` decremented when `z ≥ T`. -/
def specRho (T : ℕ) (rho : ℕ → ℤ) (z : ℕ) : ℕ → ℤ :=
  fun r => if T ≤ z ∧ r = z - T then rho r - 1 else rho r

/-- Spec: `η = [ θ' / totalwords_b , ρ' / n_c ]` (concatenation over `K`). -/
def specEta (T : ℕ) (totalwords numwords : ℕ) (theta1 rho1 : ℕ → ℤ) : ℕ → ℚ :=
  fun k => if k < T then (theta1 k : ℚ) / (totalwords : ℚ)
           else (rho1 (k - T) : ℚ) / (numwords : ℚ)

/-- Spec: `φ[k] = (TW'[w,k] + β) / N'[k]` where `TW'` and `N'` are `TW` and
`N` decremented at `(w, z)` and `z`. -/
def specPhi (tw : Mat) (bigN : Vec) (w z : ℕ) (beta : ℚ) : ℕ → ℚ :=
  fun k => (((if k = z then tw w k - 1 else tw w k) : ℚ) + beta)
      / ((if k = z then bigN k - 1 else bigN k : ℤ) : ℚ)

/-- Spec: `u[k] = (η[k] + α[k]) · φ[k]`. -/
def specU (T : ℕ) (totalwords numwords : ℕ) (theta rho : ℕ → ℤ)
    (tw : Mat) (bigN : Vec) (w z : ℕ) (alpha : ℕ → ℚ) (beta : ℚ) : ℕ → ℚ :=
  fun k => (specEta T totalwords numwords (specTheta T theta z) (specRho T rho z) k
      + alpha k) * specPhi tw bigN w z beta k

/-- Spec: `P[k] = u[k] / Σ_j u[j]`, the sum over all `K` topics. -/
def specP (T K : ℕ) (totalwords numwords : ℕ) (theta rho : ℕ → ℤ)
    (tw : Mat) (bigN : Vec) (w z : ℕ) (alpha : ℕ → ℚ) (beta : ℚ) : ℕ → ℚ :=
  fun k => specU T totalwords numwords theta rho tw bigN w z alpha beta k
      / ∑ j ∈ Finset.range K, specU T totalwords numwords theta rho tw bigN w z alpha beta j

/-- The unnormalized distribution the code computes agrees entrywise with the
spec's `u` on the `K` topics. -/
theorem tokenDistribution_eq_specU (T K : ℕ) (totalwords numwords : ℕ)
    (themecounts rolecounts : List ℤ) (tw : Mat) (bigN : Vec)
    (w z : ℕ) (alpha : ℕ → ℚ) (beta : ℚ)
    (hθ : themecounts.length = T) (hρ : rolecounts.length = K - T)
    (hTK : T ≤ K) (hz : z < K) (j : ℕ) (hj : j < K) :
    tokenDistribution T totalwords numwords themecounts rolecounts tw bigN w z alpha beta j
      = specU T totalwords numwords (fun t => themecounts.getD t 0)
          (fun r => rolecounts.getD r 0) tw bigN w z alpha beta j := by
  have hθlen : (if z < T then themecounts.set z (themecounts.getD z 0 - 1)
      else themecounts).length = T := by
    split_ifs <;> simp [hθ]
  have hρlen : (if z < T then rolecounts
      else rolecounts.set (z - T) (rolecounts.getD (z - T) 0 - 1)).length = K - T := by
    split_ifs <;> simp [hρ]
  have harr : (if z < T then themecounts.set z (themecounts.getD z 0 - 1)
        else themecounts).getD j 0
      = specTheta T (fun t => themecounts.getD t 0) z j := by
    simp only [specTheta]
    by_cases hzT : z < T
    · rw [if_pos hzT]
      by_cases hjz : j = z
      · subst hjz
        rw [getD_set_eq _ _ _ _ (by rw [hθ]; exact hzT), if_pos ⟨hzT, rfl⟩]
      · rw [getD_set_ne _ _ _ _ _ hjz, if_neg (fun hc => hjz hc.2)]
    · rw [if_neg hzT, if_neg (fun hc => hzT hc.1)]
  have harr2 : (if z < T then rolecounts
        else rolecounts.set (z - T) (rolecounts.getD (z - T) 0 - 1)).getD (j - T) 0
      = specRho T (fun r => rolecounts.getD r 0) z (j - T) := by
    simp only [specRho]
    by_cases hzT : z < T
    · rw [if_pos hzT, if_neg (fun hc => absurd hc.1 (by omega))]
    · rw [if_neg hzT]
      by_cases hjz : j - T = z - T
      · rw [hjz, getD_set_eq _ _ _ _ (by rw [hρ]; omega), if_pos ⟨by omega, rfl⟩]
      · rw [getD_set_ne _ _ _ _ _ hjz, if_neg (fun hc => hjz hc.2)]
  simp only [tokenDistribution, specU, specEta, specPhi, matAdjust, vecAdjust,
    eq_self_iff_true, true_and]
  congr 1
  · -- η entries agree
    congr 1
    by_cases hjT : j < T
    · rw [getD_append_lt _ _ _ _ (by rw [List.length_map, hθlen]; exact hjT),
        getD_map_lt _ _ _ _ (0 : ℤ) (by rw [hθlen]; exact hjT),
        if_pos hjT, harr]
    · rw [getD_append_ge _ _ _ _ (by rw [List.length_map, hθlen]; omega),
        List.length_map, hθlen,
        getD_map_lt _ _ _ _ (0 : ℤ) (by rw [hρlen]; omega),
        if_neg hjT, harr2]
  · -- φ entries agree
    simp only [sub_eq_add_neg]
    split_ifs <;> push_cast <;> ring

/-- C1: the categorical distribution the worker sweep draws each new topic
from equals the spec formula `P[k] = (η[k] + α[k])·φ[k] / Σ_j u[j]`, with the
theme/role slot of the current topic, `TW[w,z]` and `N[z]` all decremented
before the probability computation (collapsed sampling). -/
theorem claim_c1_sampling_distribution (T K : ℕ) (b : Book) (c : Character)
    (tw : Mat) (bigN : Vec) (w z : ℕ) (alpha : ℕ → ℚ) (beta : ℚ)
    (hθ : b.themecounts.length = T) (hρ : c.rolecounts.length = K - T)
    (hTK : T ≤ K) (hz : z < K) (k : ℕ) (hk : k < K) :
    tokenProbs T K b.totalwords c.numwords b.themecounts c.rolecounts
        tw bigN w z alpha beta k
      = specP T K b.totalwords c.numwords
          (fun t => b.themecounts.getD t 0) (fun r => c.rolecounts.getD r 0)
          tw bigN w z alpha beta k := by
  simp only [tokenProbs, specP]
  rw [tokenDistribution_eq_specU T K _ _ _ _ _ _ _ _ _ _ hθ hρ hTK hz k hk]
  congr 1
  exact Finset.sum_congr rfl (fun j hjm =>
    tokenDistribution_eq_specU T K _ _ _ _ _ _ _ _ _ _ hθ hρ hTK hz j
      (Finset.mem_range.mp hjm))

/-! Concrete instances used by the witness theorems: one book holding one
character with four tokens of word-type 0, alternately assigned to theme 0
and role 0 (topics 0 and 1 of `T = 1`, `K = 2`, `W = 1`), with the matching
count structures. -/

def wChar : Character :=
  { name := "b|c", wordtypes := [0, 0, 0, 0], topicassigns := [0, 1, 0, 1],
    rolecounts := [2] }

def wBook : Book :=
  { name := "b", themecounts := [2], characters := [wChar], totalwords := 4 }

def wTW : Mat := fun w k =>
  if w = 0 ∧ k = 0 then 2 else if w = 0 ∧ k = 1 then 2 else 0

def wN : Vec := fun k => colSum 1 wTW k

theorem claim_c1_witness :
    (wBook.themecounts.length = 1 ∧ wChar.rolecounts.length = 2 - 1
      ∧ 1 ≤ 2 ∧ (0 : ℕ) < 2) ∧
    tokenProbs 1 2 wBook.totalwords wChar.numwords wBook.themecounts
        wChar.rolecounts wTW wN 0 0 (fun _ => 1) 1 0
      = specP 1 2 wBook.totalwords wChar.numwords
          (fun t => wBook.themecounts.getD t 0) (fun r => wChar.rolecounts.getD r 0)
          wTW wN 0 0 (fun _ => 1) 1 0 :=
  ⟨⟨rfl, rfl, by norm_num, by norm_num⟩,
    claim_c1_sampling_distribution 1 2 wBook wChar wTW wN 0 0 (fun _ => 1) 1
      rfl rfl (by norm_num) (by norm_num) 0 (by norm_num)⟩

/-! ### Claim C3: `assignword` keeps the count invariants -/

theorem getD_set_self_add (l : List ℤ) (idx : ℕ) (change : ℤ) (j : ℕ) :
    (l.set idx (l.getD idx 0 + change)).getD j 0
      = l.getD j 0 + if j = idx ∧ idx < l.length then change else 0 := by
  by_cases hin : idx < l.length
  · by_cases hj : j = idx
    · subst hj
      rw [getD_set_eq _ _ _ _ hin, if_pos ⟨rfl, hin⟩]
    · rw [getD_set_ne _ _ _ _ _ hj, if_neg (fun hc => hj hc.1)]
      ring
  · rw [List.set_eq_of_length_le (by omega), if_neg (fun hc => hin hc.2)]
    ring

theorem getD_set_self_sub (l : List ℤ) (idx : ℕ) (j : ℕ) :
    (l.set idx (l.getD idx 0 - 1)).getD j 0
      = l.getD j 0 - if j = idx ∧ idx < l.length then 1 else 0 := by
  by_cases hin : idx < l.length
  · by_cases hj : j = idx
    · subst hj
      rw [getD_set_eq _ _ _ _ hin, if_pos ⟨rfl, hin⟩]
    · rw [getD_set_ne _ _ _ _ _ hj, if_neg (fun hc => hj hc.1)]
      ring
  · rw [List.set_eq_of_length_le (by omega), if_neg (fun hc => hin hc.2)]
    ring

/-- `assignword` only rewrites slot `wordidx` of the assignment array. -/
theorem assignword_assigns (numthemes : ℕ) (c : Character) (b : Book)
    (wordidx newtopic : ℕ) :
    (c.assignword numthemes b wordidx newtopic).1.topicassigns
      = c.topicassigns.set wordidx newtopic := by
  unfold Character.assignword
  dsimp only
  by_cases h1 : c.topicassigns.getD wordidx 0 < numthemes <;>
    by_cases h2 : newtopic < numthemes <;>
      simp only [h1, h2, ite_true, ite_false] <;> simp

theorem assignword_wordtypes (numthemes : ℕ) (c : Character) (b : Book)
    (wordidx newtopic : ℕ) :
    (c.assignword numthemes b wordidx newtopic).1.wordtypes = c.wordtypes ∧
    (c.assignword numthemes b wordidx newtopic).1.name = c.name := by
  unfold Character.assignword
  dsimp only
  by_cases h1 : c.topicassigns.getD wordidx 0 < numthemes <;>
    by_cases h2 : newtopic < numthemes <;>
      simp only [h1, h2, ite_true, ite_false] <;> simp

theorem assignword_book_shape (numthemes : ℕ) (c : Character) (b : Book)
    (wordidx newtopic : ℕ) :
    (c.assignword numthemes b wordidx newtopic).2.characters = b.characters ∧
    (c.assignword numthemes b wordidx newtopic).2.name = b.name ∧
    (c.assignword numthemes b wordidx newtopic).2.totalwords = b.totalwords := by
  unfold Character.assignword Book.increment_decrement
  dsimp only
  by_cases h1 : c.topicassigns.getD wordidx 0 < numthemes <;>
    by_cases h2 : newtopic < numthemes <;>
      simp only [h1, h2, ite_true, ite_false] <;> simp

theorem assignword_rolelen (numthemes : ℕ) (c : Character) (b : Book)
    (wordidx newtopic : ℕ) :
    (c.assignword numthemes b wordidx newtopic).1.rolecounts.length
      = c.rolecounts.length := by
  unfold Character.assignword
  dsimp only
  by_cases h1 : c.topicassigns.getD wordidx 0 < numthemes <;>
    by_cases h2 : newtopic < numthemes <;>
      simp only [h1, h2, ite_true, ite_false] <;> simp

theorem assignword_themelen (numthemes : ℕ) (c : Character) (b : Book)
    (wordidx newtopic : ℕ) :
    (c.assignword numthemes b wordidx newtopic).2.themecounts.length
      = b.themecounts.length := by
  unfold Character.assignword Book.increment_decrement
  dsimp only
  by_cases h1 : c.topicassigns.getD wordidx 0 < numthemes <;>
    by_cases h2 : newtopic < numthemes <;>
      simp only [h1, h2, ite_true, ite_false] <;> simp

/-- Net effect of `assignword` on one role-count slot: −1 at the old topic's
role slot (when the old topic is a role), +1 at the new topic's (when the new
topic is a role). -/
theorem assignword_rolecounts (numthemes : ℕ) (c : Character) (b : Book)
    (wordidx newtopic : ℕ) (r : ℕ) :
    (c.assignword numthemes b wordidx newtopic).1.rolecounts.getD r 0
      = c.rolecounts.getD r 0
        - (if r = c.topicassigns.getD wordidx 0 - numthemes
              ∧ ¬ c.topicassigns.getD wordidx 0 < numthemes
              ∧ c.topicassigns.getD wordidx 0 - numthemes < c.rolecounts.length
            then 1 else 0)
        + (if r = newtopic - numthemes ∧ ¬ newtopic < numthemes
              ∧ newtopic - numthemes < c.rolecounts.length
            then 1 else 0) := by
  unfold Character.assignword
  dsimp only
  by_cases h1 : c.topicassigns.getD wordidx 0 < numthemes
  · by_cases h2 : newtopic < numthemes
    · simp only [h1, h2, ite_true]
      split_ifs <;> (try simp_all) <;> omega
    · simp only [h1, h2, ite_true, ite_false]
      rw [getD_set_self_add]
      split_ifs <;> (try simp_all) <;> omega
  · by_cases h2 : newtopic < numthemes
    · simp only [h1, h2, ite_true, ite_false]
      rw [getD_set_self_sub]
      split_ifs <;> (try simp_all) <;> omega
    · simp only [h1, h2, ite_false]
      rw [getD_set_self_add, getD_set_self_sub, List.length_set]
      split_ifs <;> (try simp_all) <;> omega

/-- Net effect of `assignword` on one theme-count slot. -/
theorem assignword_themecounts (numthemes : ℕ) (c : Character) (b : Book)
    (wordidx newtopic : ℕ) (t : ℕ) :
    (c.assignword numthemes b wordidx newtopic).2.themecounts.getD t 0
      = b.themecounts.getD t 0
        - (if t = c.topicassigns.getD wordidx 0
              ∧ c.topicassigns.getD wordidx 0 < numthemes
              ∧ c.topicassigns.getD wordidx 0 < b.themecounts.length
            then 1 else 0)
        + (if t = newtopic ∧ newtopic < numthemes ∧ newtopic < b.themecounts.length
            then 1 else 0) := by
  unfold Character.assignword Book.increment_decrement
  dsimp only
  by_cases h1 : c.topicassigns.getD wordidx 0 < numthemes
  · by_cases h2 : newtopic < numthemes
    · simp only [h1, h2, ite_true]
      rw [getD_set_self_add, getD_set_self_add, List.length_set]
      split_ifs <;> (try simp_all) <;> omega
    · simp only [h1, h2, ite_true, ite_false]
      rw [getD_set_self_add]
      split_ifs <;> (try simp_all) <;> omega
  · by_cases h2 : newtopic < numthemes
    · simp only [h1, h2, ite_true, ite_false]
      rw [getD_set_self_add]
      split_ifs <;> (try simp_all) <;> omega
    · simp only [h1, h2, ite_false]
      split_ifs <;> (try simp_all) <;> omega

/-- Invariant: `ρ_c[r]` equals the number of entries `z` of `c.z` with
`z − T = r` (over ℤ, i.e. `z = T + r`). -/
def roleInvariant (T : ℕ) (c : Character) : Prop :=
  ∀ r, r < c.rolecounts.length →
    c.rolecounts.getD r 0 = (nOcc (T + r) c.topicassigns : ℤ)

/-- Invariant: `θ_b[t]` equals the number of tokens across the book's
characters whose assignment is `t`. -/
def themeInvariant (b : Book) : Prop :=
  ∀ t, t < b.themecounts.length →
    b.themecounts.getD t 0
      = ((b.characters.map (fun c => (nOcc t c.topicassigns : ℤ))).sum)

/-- C3: after the single mutator `assignword(c, i, z')` runs (committing the
updated character back into its book), `c.z[i] = z'` and both count
invariants still hold: the mutator decrements the old topic's slot and
increments the new topic's slot, on the theme side when the topic is `< T`
and on the role side otherwise. -/
theorem claim_c3_assignword_invariants (T R : ℕ) (b : Book) (ci i z' : ℕ)
    (hci : ci < b.characters.length)
    (hθlen : b.themecounts.length = T)
    (hρlen : (b.characters.getD ci default).rolecounts.length = R)
    (hi : i < (b.characters.getD ci default).topicassigns.length)
    (hzold : (b.characters.getD ci default).topicassigns.getD i 0 < T + R)
    (hz' : z' < T + R)
    (hrole : roleInvariant T (b.characters.getD ci default))
    (htheme : themeInvariant b) :
    ((b.characters.getD ci default).assignword T b i z').1.topicassigns.getD i 0 = z' ∧
    roleInvariant T ((b.characters.getD ci default).assignword T b i z').1 ∧
    themeInvariant
      { ((b.characters.getD ci default).assignword T b i z').2 with
        characters :=
          ((b.characters.getD ci default).assignword T b i z').2.characters.set ci
            ((b.characters.getD ci default).assignword T b i z').1 } := by
  set c := b.characters.getD ci default with hc
  refine ⟨?_, ?_, ?_⟩
  · rw [assignword_assigns, getD_set_eq _ _ _ _ hi]
  · intro r hr
    rw [assignword_rolelen] at hr
    rw [assignword_rolecounts, assignword_assigns]
    have hkey := nOcc_set_key c.topicassigns i z' (T + r) 0 hi
    have hb := hrole r hr
    have c1 : (r = c.topicassigns.getD i 0 - T ∧ ¬ c.topicassigns.getD i 0 < T
          ∧ c.topicassigns.getD i 0 - T < c.rolecounts.length)
        ↔ c.topicassigns.getD i 0 = T + r := by omega
    have c2 : (r = z' - T ∧ ¬ z' < T ∧ z' - T < c.rolecounts.length)
        ↔ z' = T + r := by omega
    simp only [c1, c2]
    by_cases e1 : c.topicassigns.getD i 0 = T + r <;>
      by_cases e2 : z' = T + r <;>
        simp only [e1, e2, eq_self_iff_true, if_true, if_false,
          ite_true, ite_false] at hkey ⊢ <;>
          omega
  · intro t ht
    dsimp only at ht ⊢
    rw [assignword_themelen] at ht
    rw [assignword_themecounts, (assignword_book_shape T c b i z').1]
    have hsum := sumMap_set b.characters ci
      ((c.assignword T b i z').1) (fun cc => (nOcc t cc.topicassigns : ℤ)) default hci
    dsimp only at hsum
    rw [assignword_assigns, ← hc] at hsum
    have hkey := nOcc_set_key c.topicassigns i z' t 0 hi
    have hb := htheme t ht
    have c1 : (t = c.topicassigns.getD i 0 ∧ c.topicassigns.getD i 0 < T
          ∧ c.topicassigns.getD i 0 < b.themecounts.length)
        ↔ c.topicassigns.getD i 0 = t := by omega
    have c2 : (t = z' ∧ z' < T ∧ z' < b.themecounts.length) ↔ z' = t := by omega
    simp only [c1, c2]
    by_cases e1 : c.topicassigns.getD i 0 = t <;>
      by_cases e2 : z' = t <;>
        simp only [e1, e2, eq_self_iff_true, if_true, if_false,
          ite_true, ite_false] at hkey hsum ⊢ <;>
          omega

theorem claim_c3_witness :
    (0 < wBook.characters.length ∧ wBook.themecounts.length = 1
      ∧ (wBook.characters.getD 0 default).rolecounts.length = 1
      ∧ 0 < (wBook.characters.getD 0 default).topicassigns.length
      ∧ (wBook.characters.getD 0 default).topicassigns.getD 0 0 < 1 + 1
      ∧ 1 < 1 + 1
      ∧ roleInvariant 1 (wBook.characters.getD 0 default)
      ∧ themeInvariant wBook) ∧
    (((wBook.characters.getD 0 default).assignword 1 wBook 0 1).1.topicassigns.getD 0 0 = 1
      ∧ roleInvariant 1 ((wBook.characters.getD 0 default).assignword 1 wBook 0 1).1
      ∧ themeInvariant
          { ((wBook.characters.getD 0 default).assignword 1 wBook 0 1).2 with
            characters :=
              ((wBook.characters.getD 0 default).assignword 1 wBook 0 1).2.characters.set 0
                ((wBook.characters.getD 0 default).assignword 1 wBook 0 1).1 }) :=
  ⟨⟨by decide, by decide, by decide, by decide, by decide, by decide,
      by unfold roleInvariant; decide, by unfold themeInvariant; decide⟩,
    claim_c3_assignword_invariants 1 1 wBook 0 0 1 (by decide) (by decide) (by decide)
      (by decide) (by decide) (by decide)
      (by unfold roleInvariant; decide) (by unfold themeInvariant; decide)⟩

/-! ### The worker sweep (`gibbs.onepass`, source lines 15–98)

The seeded numpy RNG stream is modelled by a function `rand : ℕ → ℚ` giving
the uniform variate consumed by the `n`-th call of `np.random.choice`; a
worker obtains its stream as `rngOf theseed` from the seed it is handed
(`np.random.seed(theseed)` at line 18). -/

/-- Inverse-CDF draw from a discrete distribution, given a uniform variate:
the first index whose probability mass has not been exhausted
(`np.random.choice(numtopics, p = probabilities)`, line 75).  On a nonempty
list the result is always a valid index. -/
def drawFrom : List ℚ → ℚ → ℕ
  | [], _ => 0
  | p :: rest, u =>
    if u < p then 0
    else match rest with
      | [] => 0
      | q :: rest' => drawFrom (q :: rest') (u - p) + 1

theorem drawFrom_lt (l : List ℚ) (u : ℚ) (h : l ≠ []) : drawFrom l u < l.length := by
  induction l generalizing u with
  | nil => exact absurd rfl h
  | cons p rest ih =>
    unfold drawFrom
    split_ifs with hu
    · simp
    · cases rest with
      | nil => simp
      | cons q rest' =>
        have := ih (u - p) (by simp)
        simpa [Nat.succ_lt_succ_iff] using this

/-- The mutable state a worker sweeps with: its private `twmatrix` copy, the
incrementally maintained `topicnormalizer`, the position in its RNG stream,
and the diagnostic counters of `gibbs.onepass`.  `recomputes` instruments how
often line 34 (`topicnormalizer = np.sum(twmatrix, axis = 0)`) is evaluated. -/
structure WorkerState where
  tw : Mat
  topicnormalizer : Vec
  rngIdx : ℕ
  same : ℕ
  different : ℕ
  zeroes : ℕ
  nonzeroes : ℕ
  zeroprobs : List ℚ
  recomputes : ℕ

/-- `char.assignword(idx, chosentopic)` (line 87) with the updated character
written back into the book's character list (Python mutates the shared
object; here the commit is explicit). -/
def commitBook (numthemes : ℕ) (b : Book) (ci idx newtopic : ℕ) : Book :=
  let ch := b.characters.getD ci default
  let pr := ch.assignword numthemes b idx newtopic
  { pr.2 with characters := pr.2.characters.set ci pr.1 }

/-- The draw of line 75: `np.random.choice(numtopics, p = probabilities)`
with `probabilities` the normalized conditional of lines 43–70, consuming the
next uniform variate of the worker's stream. -/
def tokenChoice (numthemes numtopics : ℕ) (alpha : ℕ → ℚ) (beta : ℚ)
    (rand : ℕ → ℚ) (acc : Book × WorkerState) (ci idx : ℕ) : ℕ :=
  let b := acc.1
  let st := acc.2
  let ch := b.characters.getD ci default
  let w := ch.wordtypes.getD idx 0
  let z := ch.topicassigns.getD idx 0
  let probabilities := tokenProbs numthemes numtopics b.totalwords ch.numwords
      b.themecounts ch.rolecounts st.tw st.topicnormalizer w z alpha beta
  drawFrom ((List.range numtopics).map probabilities) (rand st.rngIdx)

theorem tokenChoice_lt (numthemes numtopics : ℕ) (alpha : ℕ → ℚ) (beta : ℚ)
    (rand : ℕ → ℚ) (acc : Book × WorkerState) (ci idx : ℕ) (hK : 0 < numtopics) :
    tokenChoice numthemes numtopics alpha beta rand acc ci idx < numtopics := by
  unfold tokenChoice
  have := drawFrom_lt ((List.range numtopics).map (tokenProbs numthemes numtopics
      acc.1.totalwords (acc.1.characters.getD ci default).numwords
      acc.1.themecounts (acc.1.characters.getD ci default).rolecounts
      acc.2.tw acc.2.topicnormalizer
      ((acc.1.characters.getD ci default).wordtypes.getD idx 0)
      ((acc.1.characters.getD ci default).topicassigns.getD idx 0) alpha beta))
    (rand acc.2.rngIdx) (by simp; omega)
  simpa using this

/-- The body of the innermost loop of `gibbs.onepass` (lines 40–89) for the
token `idx` of character `ci` of the current book: compute the conditional
(which itself embeds the decrements of the copies of the theme/role arrays
and of `twmatrix[w, z]` and `topicnormalizer[z]`), persist those in-place
decrements, draw the new topic, update the counters, reassign through
`assignword`, and apply the symmetric increments. -/
def tokenStep (numthemes numtopics : ℕ) (alpha : ℕ → ℚ) (beta : ℚ)
    (rand : ℕ → ℚ) (acc : Book × WorkerState) (ci idx : ℕ) : Book × WorkerState :=
  let b := acc.1
  let st := acc.2
  let ch := b.characters.getD ci default
  let w := ch.wordtypes.getD idx 0
  let z := ch.topicassigns.getD idx 0
  let probabilities := tokenProbs numthemes numtopics b.totalwords ch.numwords
      b.themecounts ch.rolecounts st.tw st.topicnormalizer w z alpha beta
  let chosentopic := tokenChoice numthemes numtopics alpha beta rand acc ci idx
  (commitBook numthemes b ci idx chosentopic,
    { tw := matAdjust (matAdjust st.tw w z (-1)) w chosentopic 1,
      topicnormalizer := vecAdjust (vecAdjust st.topicnormalizer z (-1)) chosentopic 1,
      rngIdx := st.rngIdx + 1,
      same := st.same + (if chosentopic = z then 1 else 0),
      different := st.different + (if chosentopic = z then 0 else 1),
      zeroes := st.zeroes + (if chosentopic = 0 then 1 else 0),
      nonzeroes := st.nonzeroes + (if chosentopic = 0 then 0 else 1),
      zeroprobs := st.zeroprobs ++ [probabilities 0],
      recomputes := st.recomputes })

/-- `for idx in range(char.numwords)` (line 40). -/
def charSweep (numthemes numtopics : ℕ) (alpha : ℕ → ℚ) (beta : ℚ)
    (rand : ℕ → ℚ) (acc : Book × WorkerState) (ci : ℕ) : Book × WorkerState :=
  (List.range (acc.1.characters.getD ci default).numwords).foldl
    (fun a idx => tokenStep numthemes numtopics alpha beta rand a ci idx) acc

/-- One book of the sweep (lines 32–89): recompute `topicnormalizer` from the
worker's current `twmatrix` (line 34 — executed once per book), then sweep
every character. -/
def bookSweep (numthemes numtopics vocabsize : ℕ) (alpha : ℕ → ℚ) (beta : ℚ)
    (rand : ℕ → ℚ) (st : WorkerState) (b : Book) : Book × WorkerState :=
  let st0 := { st with topicnormalizer := fun k => colSum vocabsize st.tw k,
                       recomputes := st.recomputes + 1 }
  (List.range b.characters.length).foldl
    (fun a ci => charSweep numthemes numtopics alpha beta rand a ci) (b, st0)

/-- `for book in booksequence` (line 32), collecting the updated books in
order. -/
def sweepBooks (numthemes numtopics vocabsize : ℕ) (alpha : ℕ → ℚ) (beta : ℚ)
    (rand : ℕ → ℚ) : List Book → WorkerState → List Book × WorkerState
  | [], st => ([], st)
  | b :: rest, st =>
    let pr := bookSweep numthemes numtopics vocabsize alpha beta rand st b
    let pr2 := sweepBooks numthemes numtopics vocabsize alpha beta rand rest pr.2
    (pr.1 :: pr2.1, pr2.2)

/-- What one worker call produces.  The Python function returns the pair
`(twmatrix - oldmatrix, booksequence)` (line 98); `printedRate` is the value
`different / (same + 1)` written to standard output at line 91, and `same`,
`different` and `recomputes` expose the sweep's counters for the statements
below. -/
structure PassResult where
  delta : Mat
  books : List Book
  printedRate : ℚ
  same : ℕ
  different : ℕ
  recomputes : ℕ

/-- `gibbs.onepass` on one quadruplet `(booksequence, twmatrix, constants,
theseed)`. -/
def gibbs_onepass (numthemes numtopics vocabsize : ℕ) (alpha : ℕ → ℚ) (beta : ℚ)
    (rngOf : ℕ → ℕ → ℚ) (booksequence : List Book) (twmatrix : Mat)
    (theseed : ℕ) : PassResult :=
  let st0 : WorkerState :=
    { tw := twmatrix, topicnormalizer := fun _ => 0, rngIdx := 0,
      same := 0, different := 0, zeroes := 0, nonzeroes := 0,
      zeroprobs := [], recomputes := 0 }
  let pr := sweepBooks numthemes numtopics vocabsize alpha beta (rngOf theseed)
      booksequence st0
  { delta := fun w k => pr.2.tw w k - twmatrix w k,
    books := pr.1,
    printedRate := (pr.2.different : ℚ) / ((pr.2.same : ℚ) + 1),
    same := pr.2.same,
    different := pr.2.different,
    recomputes := pr.2.recomputes }

/-! ### Token counts and well-formedness -/

/-- The tokens of a character as (word-type, assignment) pairs. -/
def charPairs (c : Character) : List (ℕ × ℕ) := c.wordtypes.zip c.topicassigns

/-- Number of tokens of `c` with word-type `w` currently assigned topic `k`. -/
def charCount (c : Character) (w k : ℕ) : ℕ := nOcc (w, k) (charPairs c)

/-- Number of tokens of book `b` with word-type `w` assigned `k`. -/
def bookCount (b : Book) (w k : ℕ) : ℕ :=
  ((b.characters.map (fun c => charCount c w k)).sum)

/-- Number of tokens across a book list with word-type `w` assigned `k`. -/
def booksCount (bs : List Book) (w k : ℕ) : ℕ :=
  ((bs.map (fun b => bookCount b w k)).sum)

/-- A character is well formed when its two parallel arrays have equal length
and its word ids and assignments are in range. -/
def CharWF (W K : ℕ) (c : Character) : Prop :=
  c.topicassigns.length = c.wordtypes.length
    ∧ (∀ w ∈ c.wordtypes, w < W) ∧ (∀ z ∈ c.topicassigns, z < K)

def BookWF (W K : ℕ) (b : Book) : Prop := ∀ c ∈ b.characters, CharWF W K c

/-- The shape of a character that a sweep never changes. -/
def charShape (c : Character) : String × List ℕ × ℕ :=
  (c.name, c.wordtypes, c.topicassigns.length)

/-- The shape of a book that a sweep never changes. -/
def bookShape (b : Book) : String × ℕ × List (String × List ℕ × ℕ) :=
  (b.name, b.totalwords, b.characters.map charShape)

/-! ### Sweep preservation lemmas -/

theorem getD_mem' {α : Type} (l : List α) (n : ℕ) (d : α) (h : n < l.length) :
    l.getD n d ∈ l := by
  rw [List.getD_eq_getElem l d h]
  exact List.getElem_mem h

theorem castSumMap {α : Type} (l : List α) (g : α → ℕ) :
    ((l.map g).sum : ℤ) = (l.map (fun c => (g c : ℤ))).sum := by
  induction l with
  | nil => rfl
  | cons c l ih => simp [ih]

/-- Adjusting one cell moves the matching column sum by the same amount
(when the row index is inside the summation range). -/
theorem colSum_matAdjust (W : ℕ) (m : Mat) (w k : ℕ) (change : ℤ) (k' : ℕ) :
    colSum W (matAdjust m w k change) k'
      = colSum W m k' + if k' = k ∧ w < W then change else 0 := by
  unfold colSum matAdjust
  by_cases hk : k' = k
  · subst hk
    have hcg : ∀ w' ∈ Finset.range W,
        (if w' = w ∧ k' = k' then m w' k' + change else m w' k')
          = m w' k' + (if w' = w then change else 0) := by
      intro w' _
      by_cases hw : w' = w <;> simp [hw]
    rw [Finset.sum_congr rfl hcg, Finset.sum_add_distrib,
      Finset.sum_ite_eq' (Finset.range W) w (fun _ => change)]
    simp [Finset.mem_range]
  · have hcg : ∀ w' ∈ Finset.range W,
        (if w' = w ∧ k' = k then m w' k' + change else m w' k') = m w' k' := by
      intro w' _
      simp [hk]
    rw [Finset.sum_congr rfl hcg]
    simp [hk]

theorem zip_set_right (l₁ l₂ : List ℕ) (i : ℕ) (v : ℕ)
    (h₁ : i < l₁.length) (h₂ : i < l₂.length) :
    l₁.zip (l₂.set i v) = (l₁.zip l₂).set i (l₁.getD i 0, v) := by
  induction l₁ generalizing l₂ i with
  | nil => simp at h₁
  | cons a l₁ ih =>
    cases l₂ with
    | nil => simp at h₂
    | cons b l₂ =>
      cases i with
      | zero => simp [List.getD]
      | succ j =>
        simp only [List.set, List.zip_cons_cons, List.getD_cons_succ]
        rw [ih l₂ j (by simpa using h₁) (by simpa using h₂)]
        rfl

theorem getD_zip (l₁ l₂ : List ℕ) (i : ℕ)
    (h₁ : i < l₁.length) (h₂ : i < l₂.length) :
    (l₁.zip l₂).getD i (0, 0) = (l₁.getD i 0, l₂.getD i 0) := by
  induction l₁ generalizing l₂ i with
  | nil => simp at h₁
  | cons a l₁ ih =>
    cases l₂ with
    | nil => simp at h₂
    | cons b l₂ =>
      cases i with
      | zero => rfl
      | succ j =>
        simp only [List.zip_cons_cons, List.getD_cons_succ]
        exact ih l₂ j (by simpa using h₁) (by simpa using h₂)

theorem map_set_eq {α β : Type} (l : List α) (i : ℕ) (v : α) (f : α → β) (d : α)
    (h : i < l.length) (hf : f v = f (l.getD i d)) :
    (l.set i v).map f = l.map f := by
  induction l generalizing i with
  | nil => rfl
  | cons a l ih =>
    cases i with
    | zero =>
      simp only [List.set, List.map, List.getD_cons_zero] at hf ⊢
      rw [hf]
    | succ j =>
      simp only [List.set, List.map, List.getD_cons_succ] at hf ⊢
      rw [ih j (by simpa using h) hf]

/-- Committing a reassignment never changes the shapes: names, word arrays,
array lengths, `totalwords`. -/
theorem commitBook_shape (T : ℕ) (b : Book) (ci idx newtopic : ℕ)
    (hci : ci < b.characters.length) :
    (commitBook T b ci idx newtopic).characters.map charShape
        = b.characters.map charShape
      ∧ (commitBook T b ci idx newtopic).name = b.name
      ∧ (commitBook T b ci idx newtopic).totalwords = b.totalwords := by
  unfold commitBook
  dsimp only
  obtain ⟨hch, hbn, hbt⟩ :=
    assignword_book_shape T (b.characters.getD ci default) b idx newtopic
  rw [hch]
  refine ⟨?_, hbn, hbt⟩
  apply map_set_eq _ _ _ _ default hci
  obtain ⟨hwt, hnm⟩ :=
    assignword_wordtypes T (b.characters.getD ci default) b idx newtopic
  unfold charShape
  rw [hwt, hnm, assignword_assigns]
  simp

theorem commitBook_WF (W K T : ℕ) (b : Book) (ci idx newtopic : ℕ)
    (hnt : newtopic < K) (hBWF : BookWF W K b) :
    BookWF W K (commitBook T b ci idx newtopic) := by
  have hchWF : CharWF W K (b.characters.getD ci default) := by
    by_cases hcim : ci < b.characters.length
    · exact hBWF _ (getD_mem' _ _ _ hcim)
    · rw [List.getD_eq_default _ _ (by omega)]
      have h1 : (default : Character).wordtypes = [] := rfl
      have h2 : (default : Character).topicassigns = [] := rfl
      refine ⟨rfl, ?_, ?_⟩ <;> simp [h1, h2]
  obtain ⟨hlens, hwlt, hzlt⟩ := hchWF
  unfold commitBook
  dsimp only
  rw [(assignword_book_shape T (b.characters.getD ci default) b idx newtopic).1]
  intro c hc
  rcases List.mem_or_eq_of_mem_set hc with hmem | heq
  · exact hBWF c hmem
  · subst heq
    obtain ⟨hwt, _⟩ :=
      assignword_wordtypes T (b.characters.getD ci default) b idx newtopic
    refine ⟨?_, ?_, ?_⟩
    · rw [assignword_assigns, hwt, List.length_set]
      exact hlens
    · rw [hwt]
      exact hwlt
    · rw [assignword_assigns]
      intro zz hzz
      rcases List.mem_or_eq_of_mem_set hzz with hm | he
      · exact hzlt zz hm
      · rw [he]
        exact hnt

/-- Committing a reassignment moves the token counts by exactly −1 at the
old (word, topic) cell and +1 at the new one. -/
theorem commitBook_count (T : ℕ) (b : Book) (ci idx newtopic : ℕ)
    (hci : ci < b.characters.length)
    (hlens : (b.characters.getD ci default).topicassigns.length
        = (b.characters.getD ci default).wordtypes.length)
    (hidx : idx < (b.characters.getD ci default).topicassigns.length)
    (w k : ℕ) :
    (bookCount (commitBook T b ci idx newtopic) w k : ℤ)
      = (bookCount b w k : ℤ)
        - (if (b.characters.getD ci default).wordtypes.getD idx 0 = w
              ∧ (b.characters.getD ci default).topicassigns.getD idx 0 = k
            then 1 else 0)
        + (if (b.characters.getD ci default).wordtypes.getD idx 0 = w
              ∧ newtopic = k then 1 else 0) := by
  unfold commitBook bookCount
  dsimp only
  set ch := b.characters.getD ci default with hch
  have hcc : (charCount (ch.assignword T b idx newtopic).1 w k : ℤ)
      = (charCount ch w k : ℤ)
        - (if ch.wordtypes.getD idx 0 = w ∧ ch.topicassigns.getD idx 0 = k
            then 1 else 0)
        + (if ch.wordtypes.getD idx 0 = w ∧ newtopic = k then 1 else 0) := by
    unfold charCount charPairs
    rw [assignword_assigns, (assignword_wordtypes T ch b idx newtopic).1,
      zip_set_right _ _ _ _ (by omega) hidx]
    have hzl : idx < (ch.wordtypes.zip ch.topicassigns).length := by
      rw [List.length_zip]
      omega
    have hkey := nOcc_set_key (ch.wordtypes.zip ch.topicassigns) idx
        (ch.wordtypes.getD idx 0, newtopic) (w, k) (0, 0) hzl
    rw [getD_zip _ _ _ (by omega) hidx] at hkey
    simp only [Prod.mk.injEq] at hkey
    split_ifs at hkey ⊢ <;> push_cast <;> omega
  rw [(assignword_book_shape T ch b idx newtopic).1]
  have hsum := sumMap_set b.characters ci ((ch.assignword T b idx newtopic).1)
      (fun c => (charCount c w k : ℤ)) default hci
  dsimp only at hsum
  rw [← hch] at hsum
  rw [castSumMap, castSumMap]
  split_ifs at hcc ⊢ <;> omega

/-- Everything a worker's inner loops preserve about the pair (current book,
worker state), relative to the book `b₀` and matrix `tw₀` at the start of the
current `bookSweep`: shapes are untouched, well-formedness persists, the
private `twmatrix` has moved exactly by the movement of the token counts, and
`topicnormalizer` stays the exact column sums of the private `twmatrix`. -/
def SweepInv (W K : ℕ) (b₀ : Book) (tw₀ : Mat) (p : Book × WorkerState) : Prop :=
  p.1.characters.map charShape = b₀.characters.map charShape ∧
  p.1.name = b₀.name ∧
  p.1.totalwords = b₀.totalwords ∧
  BookWF W K p.1 ∧
  (∀ w k, p.2.tw w k + (bookCount b₀ w k : ℤ) = tw₀ w k + (bookCount p.1 w k : ℤ)) ∧
  (∀ k, p.2.topicnormalizer k = colSum W p.2.tw k)

theorem sweepInv_char_wordtypes (W K : ℕ) (b₀ : Book) (tw₀ : Mat)
    (p : Book × WorkerState) (hp : SweepInv W K b₀ tw₀ p) (ci : ℕ)
    (hci : ci < b₀.characters.length) :
    (p.1.characters.getD ci default).wordtypes
      = (b₀.characters.getD ci default).wordtypes := by
  obtain ⟨hshape, -, -, -, -, -⟩ := hp
  have hlen : p.1.characters.length = b₀.characters.length := by
    have := congrArg List.length hshape
    simpa using this
  have h1 := congrArg (fun l => l.getD ci (charShape default)) hshape
  dsimp only at h1
  rw [getD_map_lt _ _ _ _ default (by omega), getD_map_lt _ _ _ _ default hci] at h1
  exact congrArg (fun s => s.2.1) h1

theorem tokenStep_preserves (W T K : ℕ) (alpha : ℕ → ℚ) (beta : ℚ)
    (rand : ℕ → ℚ) (b₀ : Book) (tw₀ : Mat) (hK : 0 < K)
    (acc : Book × WorkerState) (ci idx : ℕ)
    (hci : ci < b₀.characters.length)
    (hidx : idx < (b₀.characters.getD ci default).numwords)
    (hp : SweepInv W K b₀ tw₀ acc) :
    SweepInv W K b₀ tw₀ (tokenStep T K alpha beta rand acc ci idx) := by
  have hwt := sweepInv_char_wordtypes W K b₀ tw₀ acc hp ci hci
  obtain ⟨hshape, hname, htot, hBWF, hdelta, hsync⟩ := hp
  have hlen : acc.1.characters.length = b₀.characters.length := by
    have := congrArg List.length hshape
    simpa using this
  have hci' : ci < acc.1.characters.length := by omega
  obtain ⟨hlens, hwlt, hzlt⟩ := hBWF _ (getD_mem' _ _ default hci')
  have hidx' : idx < (acc.1.characters.getD ci default).wordtypes.length := by
    rw [hwt]
    exact hidx
  have hidxa : idx < (acc.1.characters.getD ci default).topicassigns.length := by
    omega
  have hwW : (acc.1.characters.getD ci default).wordtypes.getD idx 0 < W :=
    hwlt _ (getD_mem' _ _ _ hidx')
  have hcK : tokenChoice T K alpha beta rand acc ci idx < K :=
    tokenChoice_lt T K alpha beta rand acc ci idx hK
  obtain ⟨hsh, hnm, htw⟩ :=
    commitBook_shape T acc.1 ci idx (tokenChoice T K alpha beta rand acc ci idx) hci'
  unfold tokenStep
  dsimp only
  refine ⟨?_, ?_, ?_, ?_, ?_, ?_⟩
  · rw [hsh, hshape]
  · rw [hnm, hname]
  · rw [htw, htot]
  · exact commitBook_WF W K T acc.1 ci idx _ hcK hBWF
  · intro w' k'
    dsimp only
    have hcnt := commitBook_count T acc.1 ci idx
      (tokenChoice T K alpha beta rand acc ci idx) hci' hlens hidxa w' k'
    have hd := hdelta w' k'
    have e1 : ((acc.1.characters.getD ci default).wordtypes.getD idx 0 = w'
          ∧ (acc.1.characters.getD ci default).topicassigns.getD idx 0 = k')
        ↔ (w' = (acc.1.characters.getD ci default).wordtypes.getD idx 0
          ∧ k' = (acc.1.characters.getD ci default).topicassigns.getD idx 0) := by
      constructor <;> exact fun h => ⟨h.1.symm, h.2.symm⟩
    have e2 : ((acc.1.characters.getD ci default).wordtypes.getD idx 0 = w'
          ∧ tokenChoice T K alpha beta rand acc ci idx = k')
        ↔ (w' = (acc.1.characters.getD ci default).wordtypes.getD idx 0
          ∧ k' = tokenChoice T K alpha beta rand acc ci idx) := by
      constructor <;> exact fun h => ⟨h.1.symm, h.2.symm⟩
    simp only [e1, e2] at hcnt
    unfold matAdjust
    split_ifs at hcnt ⊢ <;> omega
  · intro k'
    have hs := hsync
    dsimp only
    unfold vecAdjust
    rw [colSum_matAdjust, colSum_matAdjust, hs k']
    simp only [hwW, and_true]
    split_ifs <;> omega

theorem charSweep_preserves (W T K : ℕ) (alpha : ℕ → ℚ) (beta : ℚ)
    (rand : ℕ → ℚ) (b₀ : Book) (tw₀ : Mat) (hK : 0 < K)
    (acc : Book × WorkerState) (ci : ℕ)
    (hci : ci < b₀.characters.length)
    (hp : SweepInv W K b₀ tw₀ acc) :
    SweepInv W K b₀ tw₀ (charSweep T K alpha beta rand acc ci) := by
  have hwt := sweepInv_char_wordtypes W K b₀ tw₀ acc hp ci hci
  unfold charSweep
  apply foldl_invariant (SweepInv W K b₀ tw₀) _ _ _ ?_ hp
  intro p' idx hidxmem hp'
  rw [List.mem_range] at hidxmem
  refine tokenStep_preserves W T K alpha beta rand b₀ tw₀ hK p' ci idx hci ?_ hp'
  unfold Character.numwords at hidxmem ⊢
  rw [hwt] at hidxmem
  exact hidxmem

theorem bookSweep_inv (W T K : ℕ) (alpha : ℕ → ℚ) (beta : ℚ)
    (rand : ℕ → ℚ) (hK : 0 < K) (st : WorkerState) (b : Book)
    (hWF : BookWF W K b) :
    SweepInv W K b st.tw (bookSweep T K W alpha beta rand st b) := by
  unfold bookSweep
  dsimp only
  apply foldl_invariant (SweepInv W K b st.tw) _ _ _ ?_
    ⟨rfl, rfl, rfl, hWF, fun w k => rfl, fun k => rfl⟩
  intro p' ci hcimem hp'
  rw [List.mem_range] at hcimem
  exact charSweep_preserves W T K alpha beta rand b st.tw hK p' ci hcimem hp'

theorem sweepBooks_facts (W T K : ℕ) (alpha : ℕ → ℚ) (beta : ℚ)
    (rand : ℕ → ℚ) (hK : 0 < K) (books : List Book) :
    ∀ (st : WorkerState), (∀ b ∈ books, BookWF W K b) →
    ((sweepBooks T K W alpha beta rand books st).1.map bookShape
        = books.map bookShape) ∧
    (∀ b ∈ (sweepBooks T K W alpha beta rand books st).1, BookWF W K b) ∧
    (∀ w k, (sweepBooks T K W alpha beta rand books st).2.tw w k
          + (booksCount books w k : ℤ)
        = st.tw w k
          + (booksCount (sweepBooks T K W alpha beta rand books st).1 w k : ℤ)) := by
  induction books with
  | nil =>
    intro st _
    exact ⟨rfl, by simp [sweepBooks], fun w k => rfl⟩
  | cons b rest ih =>
    intro st hWF
    have hinv := bookSweep_inv W T K alpha beta rand hK st b
      (hWF b (List.mem_cons_self b rest))
    obtain ⟨hshape, hname, htot, hbWF, hdelta, -⟩ := hinv
    obtain ⟨ihshape, ihWF, ihdelta⟩ :=
      ih (bookSweep T K W alpha beta rand st b).2
        (fun b' hb' => hWF b' (List.mem_cons_of_mem b hb'))
    simp only [sweepBooks]
    refine ⟨?_, ?_, ?_⟩
    · simp only [List.map]
      rw [ihshape]
      have : bookShape (bookSweep T K W alpha beta rand st b).1 = bookShape b := by
        unfold bookShape
        rw [hshape, hname, htot]
      rw [this]
    · intro b' hb'
      rcases List.mem_cons.mp hb' with he | hm
      · rw [he]
        exact hbWF
      · exact ihWF b' hm
    · intro w k
      have h1 := hdelta w k
      have h2 := ihdelta w k
      simp only [booksCount, List.map, List.sum_cons] at *
      omega

/-! ### Counter bookkeeping of the sweep -/

/-- Total token count of a book / of a book list. -/
def bookTokens (b : Book) : ℕ := ((b.characters.map Character.numwords).sum)

def listTokens (bs : List Book) : ℕ := ((bs.map bookTokens).sum)

theorem foldl_measure {α β : Type} (μ : β → ℕ) (f : β → α → β) (l : List α) (b : β)
    (h : ∀ b' a, a ∈ l → μ (f b' a) = μ b' + 1) : μ (l.foldl f b) = μ b + l.length := by
  induction l generalizing b with
  | nil => rfl
  | cons x l ih =>
    rw [List.foldl_cons, ih (f b x) (fun b' a ha => h b' a (List.mem_cons_of_mem x ha)),
      h b x (List.mem_cons_self x l), List.length_cons]
    omega

theorem foldl_measure_invariant {α β : Type} (Inv : β → Prop) (μ : β → ℕ) (ν : α → ℕ)
    (f : β → α → β) (l : List α) (b : β)
    (hstep : ∀ b' a, a ∈ l → Inv b' → Inv (f b' a) ∧ μ (f b' a) = μ b' + ν a)
    (hb : Inv b) :
    Inv (l.foldl f b) ∧ μ (l.foldl f b) = μ b + ((l.map ν).sum) := by
  induction l generalizing b with
  | nil => exact ⟨hb, rfl⟩
  | cons x l ih =>
    obtain ⟨h1, h2⟩ := hstep b x (List.mem_cons_self x l) hb
    obtain ⟨h3, h4⟩ := ih (f b x) (fun b' a ha hi => hstep b' a (List.mem_cons_of_mem x ha) hi) h1
    refine ⟨h3, ?_⟩
    rw [List.foldl_cons] at *
    rw [h4, h2]
    simp
    omega

theorem sum_map_range_getD {α : Type} (l : List α) (d : α) (f : α → ℕ) :
    ((List.range l.length).map (fun i => f (l.getD i d))).sum = (l.map f).sum := by
  congr 1
  apply List.ext_getElem
  · simp
  · intro i h1 h2
    simp only [List.getElem_map, List.getElem_range]
    rw [List.getD_eq_getElem l d (by simpa using h2)]

/-- Each token bumps `same + different` by exactly one and leaves
`recomputes` alone. -/
theorem tokenStep_counters (T K : ℕ) (alpha : ℕ → ℚ) (beta : ℚ) (rand : ℕ → ℚ)
    (acc : Book × WorkerState) (ci idx : ℕ) :
    ((tokenStep T K alpha beta rand acc ci idx).2.same
        + (tokenStep T K alpha beta rand acc ci idx).2.different
      = acc.2.same + acc.2.different + 1)
    ∧ (tokenStep T K alpha beta rand acc ci idx).2.recomputes = acc.2.recomputes := by
  unfold tokenStep
  dsimp only
  refine ⟨?_, rfl⟩
  split_ifs <;> omega

theorem charSweep_counters (T K : ℕ) (alpha : ℕ → ℚ) (beta : ℚ) (rand : ℕ → ℚ)
    (acc : Book × WorkerState) (ci : ℕ) :
    ((charSweep T K alpha beta rand acc ci).2.same
        + (charSweep T K alpha beta rand acc ci).2.different
      = acc.2.same + acc.2.different
        + (acc.1.characters.getD ci default).numwords)
    ∧ (charSweep T K alpha beta rand acc ci).2.recomputes = acc.2.recomputes := by
  unfold charSweep
  constructor
  · have := foldl_measure (fun p => p.2.same + p.2.different)
      (fun a idx => tokenStep T K alpha beta rand a ci idx)
      (List.range (acc.1.characters.getD ci default).numwords) acc
      (fun b' a _ => (tokenStep_counters T K alpha beta rand b' ci a).1)
    simpa using this
  · exact foldl_invariant
      (fun (p : Book × WorkerState) => p.2.recomputes = acc.2.recomputes)
      (fun a idx => tokenStep T K alpha beta rand a ci idx)
      (List.range (acc.1.characters.getD ci default).numwords) acc
      (fun b' a _ hb => by
        show (tokenStep T K alpha beta rand b' ci a).2.recomputes = acc.2.recomputes
        rw [(tokenStep_counters T K alpha beta rand b' ci a).2]
        exact hb) rfl

theorem bookSweep_counters (W T K : ℕ) (alpha : ℕ → ℚ) (beta : ℚ)
    (rand : ℕ → ℚ) (hK : 0 < K) (st : WorkerState) (b : Book)
    (hWF : BookWF W K b) :
    ((bookSweep T K W alpha beta rand st b).2.same
        + (bookSweep T K W alpha beta rand st b).2.different
      = st.same + st.different + bookTokens b)
    ∧ (bookSweep T K W alpha beta rand st b).2.recomputes = st.recomputes + 1 := by
  unfold bookSweep
  dsimp only
  have hmain := foldl_measure_invariant
    (fun (p : Book × WorkerState) =>
      SweepInv W K b st.tw p ∧ p.2.recomputes = st.recomputes + 1)
    (fun (p : Book × WorkerState) => p.2.same + p.2.different)
    (fun ci => (b.characters.getD ci default).numwords)
    (fun a ci => charSweep T K alpha beta rand a ci)
    (List.range b.characters.length)
    (b, { st with topicnormalizer := fun k => colSum W st.tw k,
                  recomputes := st.recomputes + 1 })
    (fun p' ci hcimem hp' => by
      rw [List.mem_range] at hcimem
      refine ⟨⟨charSweep_preserves W T K alpha beta rand b st.tw hK p' ci hcimem hp'.1,
        ?_⟩, ?_⟩
      · dsimp only
        rw [(charSweep_counters T K alpha beta rand p' ci).2, hp'.2]
      · dsimp only
        rw [(charSweep_counters T K alpha beta rand p' ci).1]
        unfold Character.numwords
        rw [sweepInv_char_wordtypes W K b st.tw p' hp'.1 ci hcimem])
    ⟨⟨rfl, rfl, rfl, hWF, fun w k => rfl, fun k => rfl⟩, rfl⟩
  obtain ⟨⟨-, hrec⟩, hcnt⟩ := hmain
  refine ⟨?_, hrec⟩
  have hs : bookTokens b
      = ((List.range b.characters.length).map
          (fun ci => (b.characters.getD ci default).numwords)).sum := by
    unfold bookTokens
    exact (sum_map_range_getD b.characters default Character.numwords).symm
  rw [hs]
  exact hcnt

theorem sweepBooks_counters (W T K : ℕ) (alpha : ℕ → ℚ) (beta : ℚ)
    (rand : ℕ → ℚ) (hK : 0 < K) (books : List Book) :
    ∀ (st : WorkerState), (∀ b ∈ books, BookWF W K b) →
    ((sweepBooks T K W alpha beta rand books st).2.same
        + (sweepBooks T K W alpha beta rand books st).2.different
      = st.same + st.different + listTokens books)
    ∧ (sweepBooks T K W alpha beta rand books st).2.recomputes
      = st.recomputes + books.length := by
  induction books with
  | nil =>
    intro st _
    exact ⟨rfl, rfl⟩
  | cons b rest ih =>
    intro st hWF
    obtain ⟨h1, h2⟩ := bookSweep_counters W T K alpha beta rand hK st b
      (hWF b (List.mem_cons_self b rest))
    obtain ⟨h3, h4⟩ := ih (bookSweep T K W alpha beta rand st b).2
      (fun b' hb' => hWF b' (List.mem_cons_of_mem b hb'))
    simp only [sweepBooks]
    constructor
    · rw [h3, h1]
      simp only [listTokens, List.map, List.sum_cons]
      omega
    · rw [h4, h2, List.length_cons]
      omega

/-- The sweep's `recomputes` counter alone, without well-formedness: the
column-sum recomputation of line 34 runs once per book unconditionally. -/
theorem sweepBooks_recomputes (W T K : ℕ) (alpha : ℕ → ℚ) (beta : ℚ)
    (rand : ℕ → ℚ) (books : List Book) :
    ∀ (st : WorkerState),
    (sweepBooks T K W alpha beta rand books st).2.recomputes
      = st.recomputes + books.length := by
  induction books with
  | nil => intro st; rfl
  | cons b rest ih =>
    intro st
    simp only [sweepBooks]
    rw [ih]
    have : (bookSweep T K W alpha beta rand st b).2.recomputes = st.recomputes + 1 := by
      unfold bookSweep
      dsimp only
      exact foldl_invariant
        (fun (p : Book × WorkerState) => p.2.recomputes = st.recomputes + 1)
        (fun a ci => charSweep T K alpha beta rand a ci)
        (List.range b.characters.length)
        (b, { st with topicnormalizer := fun k => colSum W st.tw k,
                      recomputes := st.recomputes + 1 })
        (fun b' a _ hb => by
          show (charSweep T K alpha beta rand b' a).2.recomputes = st.recomputes + 1
          rw [(charSweep_counters T K alpha beta rand b' a).2]
          exact hb) rfl
    rw [this, List.length_cons]
    omega

/-! ### Claims C4, C5, C10 -/

/-- What the whole worker call guarantees: book shapes and well-formedness
are preserved, the returned `ΔTW` is exactly the movement of the token
counts, and every token bumps `same` or `different` exactly once. -/
theorem gibbs_onepass_facts (W T K : ℕ) (alpha : ℕ → ℚ) (beta : ℚ)
    (rngOf : ℕ → ℕ → ℚ) (books : List Book) (tw : Mat) (theseed : ℕ)
    (hK : 0 < K) (hWF : ∀ b ∈ books, BookWF W K b) :
    ((gibbs_onepass T K W alpha beta rngOf books tw theseed).books.map bookShape
      = books.map bookShape)
    ∧ (∀ b ∈ (gibbs_onepass T K W alpha beta rngOf books tw theseed).books,
        BookWF W K b)
    ∧ (∀ w k, (gibbs_onepass T K W alpha beta rngOf books tw theseed).delta w k
        = (booksCount (gibbs_onepass T K W alpha beta rngOf books tw theseed).books w k : ℤ)
          - (booksCount books w k : ℤ))
    ∧ ((gibbs_onepass T K W alpha beta rngOf books tw theseed).same
        + (gibbs_onepass T K W alpha beta rngOf books tw theseed).different
      = listTokens books) := by
  unfold gibbs_onepass
  dsimp only
  obtain ⟨h1, h2, h3⟩ := sweepBooks_facts W T K alpha beta (rngOf theseed) hK books
    { tw := tw, topicnormalizer := fun _ => 0, rngIdx := 0, same := 0,
      different := 0, zeroes := 0, nonzeroes := 0, zeroprobs := [], recomputes := 0 }
    hWF
  obtain ⟨h4, -⟩ := sweepBooks_counters W T K alpha beta (rngOf theseed) hK books
    { tw := tw, topicnormalizer := fun _ => 0, rngIdx := 0, same := 0,
      different := 0, zeroes := 0, nonzeroes := 0, zeroprobs := [], recomputes := 0 }
    hWF
  refine ⟨h1, h2, ?_, ?_⟩
  · intro w k
    have := h3 w k
    dsimp only at this
    omega
  · simpa using h4

/-! The witness inputs: two one-character books whose four tokens of
word-type 0 alternate between theme 0 and role 0, a consistent topic–word
matrix, and a variate stream chosen so that every draw re-selects the
current topic (so the Python run stays in the regime where all column sums
stay positive). -/

def wCharA : Character :=
  { name := "a|c", wordtypes := [0, 0, 0, 0], topicassigns := [0, 1, 0, 1],
    rolecounts := [2] }

def wBookA : Book :=
  { name := "a", themecounts := [2], characters := [wCharA], totalwords := 4 }

def wBookB : Book :=
  { name := "bb", themecounts := [2], characters := [wCharA], totalwords := 4 }

def wTW2 : Mat := fun w k =>
  if w = 0 ∧ k = 0 then 4 else if w = 0 ∧ k = 1 then 4 else 0

def wRand : ℕ → ℚ := fun n => if n % 2 = 0 then 0 else 999/1000

unseal Rat.inv Rat.mul Rat.add Rat.sub Rat.ofScientific in
/-- C4 counterexample: on a concrete sweep whose four tokens all keep their
topics (`same = 4`, `different = 0`), the change-ratio the code computes —
and only prints, at line 91 — is `different/(same + 1) = 0`, not the claim's
`(different + 1)/(same + 1) = 1/5`. -/
theorem claim_c4_counterexample :
    (gibbs_onepass 1 2 1 (fun _ => 1) 1 (fun _ => wRand) [wBookA] wTW2 7).same = 4
    ∧ (gibbs_onepass 1 2 1 (fun _ => 1) 1 (fun _ => wRand) [wBookA] wTW2 7).different = 0
    ∧ (gibbs_onepass 1 2 1 (fun _ => 1) 1 (fun _ => wRand) [wBookA] wTW2 7).printedRate = 0
    ∧ (((gibbs_onepass 1 2 1 (fun _ => 1) 1 (fun _ => wRand) [wBookA] wTW2 7).different : ℚ)
          + 1)
        / (((gibbs_onepass 1 2 1 (fun _ => 1) 1 (fun _ => wRand) [wBookA] wTW2 7).same : ℚ)
          + 1) = 1/5
    ∧ (0 : ℚ) ≠ 1/5 := by
  decide

/-- C4 (amended): `gibbs.onepass` returns the *pair* `(ΔTW, booksequence)` —
the same books in the same order with only assignments and counts updated —
where `ΔTW[w,k]` is the net change the sweep made to its snapshot; the
change-ratio is not returned but printed, and it equals
`different/(same + 1)`, with `same` counting tokens reassigned to their
current topic and `different` the rest (together they count every token). -/
theorem claim_c4_return_value (W T K : ℕ) (alpha : ℕ → ℚ) (beta : ℚ)
    (rngOf : ℕ → ℕ → ℚ) (books : List Book) (tw : Mat) (theseed : ℕ)
    (hK : 0 < K) (hWF : ∀ b ∈ books, BookWF W K b) :
    ((gibbs_onepass T K W alpha beta rngOf books tw theseed).books.map bookShape
      = books.map bookShape)
    ∧ (∀ w k, (gibbs_onepass T K W alpha beta rngOf books tw theseed).delta w k
        = (booksCount (gibbs_onepass T K W alpha beta rngOf books tw theseed).books w k : ℤ)
          - (booksCount books w k : ℤ))
    ∧ ((gibbs_onepass T K W alpha beta rngOf books tw theseed).printedRate
        = ((gibbs_onepass T K W alpha beta rngOf books tw theseed).different : ℚ)
          / (((gibbs_onepass T K W alpha beta rngOf books tw theseed).same : ℚ) + 1))
    ∧ ((gibbs_onepass T K W alpha beta rngOf books tw theseed).same
        + (gibbs_onepass T K W alpha beta rngOf books tw theseed).different
      = listTokens books) := by
  obtain ⟨h1, -, h3, h4⟩ :=
    gibbs_onepass_facts W T K alpha beta rngOf books tw theseed hK hWF
  exact ⟨h1, h3, rfl, h4⟩

theorem claim_c4_witness :
    ((0 : ℕ) < 2 ∧ ∀ b ∈ [wBookA], BookWF 1 2 b) ∧
    (((gibbs_onepass 1 2 1 (fun _ => 1) 1 (fun _ => wRand) [wBookA] wTW2 7).books.map
          bookShape = [wBookA].map bookShape)
      ∧ (∀ w k, (gibbs_onepass 1 2 1 (fun _ => 1) 1 (fun _ => wRand) [wBookA] wTW2 7).delta w k
          = (booksCount (gibbs_onepass 1 2 1 (fun _ => 1) 1 (fun _ => wRand) [wBookA] wTW2 7).books w k : ℤ)
            - (booksCount [wBookA] w k : ℤ))
      ∧ ((gibbs_onepass 1 2 1 (fun _ => 1) 1 (fun _ => wRand) [wBookA] wTW2 7).printedRate
          = ((gibbs_onepass 1 2 1 (fun _ => 1) 1 (fun _ => wRand) [wBookA] wTW2 7).different : ℚ)
            / (((gibbs_onepass 1 2 1 (fun _ => 1) 1 (fun _ => wRand) [wBookA] wTW2 7).same : ℚ) + 1))
      ∧ ((gibbs_onepass 1 2 1 (fun _ => 1) 1 (fun _ => wRand) [wBookA] wTW2 7).same
          + (gibbs_onepass 1 2 1 (fun _ => 1) 1 (fun _ => wRand) [wBookA] wTW2 7).different
        = listTokens [wBookA])) :=
  ⟨⟨by norm_num, by unfold BookWF CharWF; decide⟩,
    claim_c4_return_value 1 1 2 (fun _ => 1) 1 (fun _ => wRand) [wBookA] wTW2 7
      (by norm_num) (by unfold BookWF CharWF; decide)⟩

/-- How often line 34 (`topicnormalizer = np.sum(twmatrix, axis = 0)`) runs
during one worker call: once per book of the shard. -/
theorem gibbs_onepass_recomputes (W T K : ℕ) (alpha : ℕ → ℚ) (beta : ℚ)
    (rngOf : ℕ → ℕ → ℚ) (books : List Book) (tw : Mat) (theseed : ℕ) :
    (gibbs_onepass T K W alpha beta rngOf books tw theseed).recomputes
      = books.length := by
  unfold gibbs_onepass
  dsimp only
  rw [sweepBooks_recomputes]
  dsimp only
  omega

/-- C5 counterexample: on a two-book shard the column-sum vector is
recomputed from `TW` twice — once at the start of each book (line 34 sits
inside the `for book in booksequence` loop) — not once for the sweep. -/
theorem claim_c5_counterexample :
    (gibbs_onepass 1 2 1 (fun _ => 1) 1 (fun _ => wRand) [wBookA, wBookB] wTW2 7).recomputes
      = 2 ∧ (2 : ℕ) ≠ 1 :=
  ⟨gibbs_onepass_recomputes 1 1 2 (fun _ => 1) 1 (fun _ => wRand)
    [wBookA, wBookB] wTW2 7, by omega⟩

/-- C5 (amended): within one worker sweep, `topicnormalizer` is recomputed
from the worker's current `TW` at the start of **each book** of the shard —
`books.length` times in total — and is maintained only by incremental ±1
updates between those recomputations (never refreshed between characters). -/
theorem claim_c5_normalizer_recompute (W T K : ℕ) (alpha : ℕ → ℚ) (beta : ℚ)
    (rngOf : ℕ → ℕ → ℚ) (books : List Book) (tw : Mat) (theseed : ℕ) :
    (gibbs_onepass T K W alpha beta rngOf books tw theseed).recomputes
      = books.length :=
  gibbs_onepass_recomputes W T K alpha beta rngOf books tw theseed

/-- C10: through every per-token decrement/increment pair the worker-local
`topicnormalizer` stays the exact column-sum vector of the worker-local
`twmatrix` (both receive −1 at `z`/`(w,z)` and +1 at `z'`/`(w,z')`); the
divisor used for `φ` equals the column sums of the decremented matrix being
divided, and recomputing the vector from the matrix is a no-op under the
invariant. -/
theorem claim_c10_normalizer_sync (W T K : ℕ) (alpha : ℕ → ℚ) (beta : ℚ)
    (rand : ℕ → ℚ) (acc : Book × WorkerState) (ci idx : ℕ)
    (hw : (acc.1.characters.getD ci default).wordtypes.getD idx 0 < W)
    (hsync : ∀ k, acc.2.topicnormalizer k = colSum W acc.2.tw k) :
    (∀ k, (tokenStep T K alpha beta rand acc ci idx).2.topicnormalizer k
        = colSum W (tokenStep T K alpha beta rand acc ci idx).2.tw k) ∧
    (∀ k, vecAdjust acc.2.topicnormalizer
          ((acc.1.characters.getD ci default).topicassigns.getD idx 0) (-1) k
        = colSum W (matAdjust acc.2.tw
            ((acc.1.characters.getD ci default).wordtypes.getD idx 0)
            ((acc.1.characters.getD ci default).topicassigns.getD idx 0) (-1)) k) ∧
    (∀ k, colSum W acc.2.tw k = acc.2.topicnormalizer k) := by
  refine ⟨?_, ?_, fun k => (hsync k).symm⟩
  · intro k
    unfold tokenStep
    dsimp only
    unfold vecAdjust
    rw [colSum_matAdjust, colSum_matAdjust, hsync k]
    simp only [hw, and_true]
    split_ifs <;> omega
  · intro k
    unfold vecAdjust
    rw [colSum_matAdjust, hsync k]
    simp only [hw, and_true]
    split_ifs <;> omega

def wState : WorkerState :=
  { tw := wTW2, topicnormalizer := fun k => colSum 1 wTW2 k, rngIdx := 0,
    same := 0, different := 0, zeroes := 0, nonzeroes := 0, zeroprobs := [],
    recomputes := 0 }

theorem claim_c10_witness :
    (((wBookA, wState).1.characters.getD 0 default).wordtypes.getD 0 0 < 1
      ∧ ∀ k, (wBookA, wState).2.topicnormalizer k = colSum 1 (wBookA, wState).2.tw k) ∧
    ((∀ k, (tokenStep 1 2 (fun _ => 1) 1 wRand (wBookA, wState) 0 0).2.topicnormalizer k
        = colSum 1 (tokenStep 1 2 (fun _ => 1) 1 wRand (wBookA, wState) 0 0).2.tw k) ∧
    (∀ k, vecAdjust (wBookA, wState).2.topicnormalizer
          (((wBookA, wState).1.characters.getD 0 default).topicassigns.getD 0 0) (-1) k
        = colSum 1 (matAdjust (wBookA, wState).2.tw
            (((wBookA, wState).1.characters.getD 0 default).wordtypes.getD 0 0)
            (((wBookA, wState).1.characters.getD 0 default).topicassigns.getD 0 0) (-1)) k) ∧
    (∀ k, colSum 1 (wBookA, wState).2.tw k = (wBookA, wState).2.topicnormalizer k)) :=
  ⟨⟨by decide, fun k => rfl⟩,
    claim_c10_normalizer_sync 1 1 2 (fun _ => 1) 1 wRand (wBookA, wState) 0 0
      (by decide) (fun k => rfl)⟩

/-! ### The coordinator (`__main__` of `infer_two_levels.py`, lines 374–436)
and the audit (`recreate_matrix`, lines 226–250)

`random.shuffle` draws from the global Python RNG; its effect is modelled by
a per-iteration reordering function handed to the coordinator, which is part
of the "identical shuffle RNG state" of claim C9. -/

/-- Python's extended slice `lst[i::n]` after the initial `drop i`: every
`n`-th element. -/
def everyNth {α : Type} (n : ℕ) : List α → List α
  | [] => []
  | a :: rest => a :: everyNth n (rest.drop (n - 1))
  termination_by l => l.length
  decreasing_by simp only [List.length_drop, List.length_cons]; omega

/-- `shuffledivide(booklist, n)` (lines 330–344): shuffle, then deal the
books into `n` stride shards `booklist[i::n]`. -/
def shuffledivide (shuffle : List Book → List Book) (booklist : List Book)
    (n : ℕ) : List (List Book) :=
  let shuffled := shuffle booklist
  (List.range n).map (fun i => everyNth n (shuffled.drop i))

/-- Lines 405–420: build the quadruplets — shard, a full private copy of
`twmatrix`, the constants, and seed `((s+1)(iteration+1)) mod 399` — and run
`gibbs.onepass` on each (the pool returns the results in input order). -/
def workerResults (numthemes numtopics vocabsize : ℕ) (alpha : List ℚ)
    (beta : ℚ) (rngOf : ℕ → ℕ → ℚ) (iteration numprocesses : ℕ)
    (booksequences : List (List Book)) (twmatrix : Mat) : List PassResult :=
  let random_seeds := (List.range numprocesses).map
    (fun i => ((i + 1) * (iteration + 1)) % 399)
  (booksequences.zip random_seeds).map
    (fun p => gibbs_onepass numthemes numtopics vocabsize
      (fun k => alpha.getD k 0) beta rngOf p.1 twmatrix p.2)

/-- Lines 424–428: `booklist = []`, then for each worker result extend the
book list and add the change matrix onto the global `twmatrix`. -/
def mergeResults (twmatrix : Mat) (results : List PassResult) :
    List Book × Mat :=
  results.foldl
    (fun acc r => (acc.1 ++ r.books, fun w k => acc.2 w k + r.delta w k))
    ([], twmatrix)

/-- `recreate_matrix` (lines 226–250): rebuild a fresh matrix by incrementing
one cell per token at `(words[idx], z[idx])` over every character of every
book. -/
def recreate_matrix (booklist : List Book) : Mat :=
  booklist.foldl
    (fun m b => b.characters.foldl
      (fun m' ch => (List.range ch.numwords).foldl
        (fun m'' idx => matAdjust m''
          (ch.wordtypes.getD idx 0) (ch.topicassigns.getD idx 0) 1) m') m)
    (fun _ _ => 0)

/-- `charactercount` of the audit: the summed `len(char.topicassigns)`. -/
def audit_charactercount (b : Book) : ℕ :=
  ((b.characters.map (fun c => c.topicassigns.length)).sum)

/-- Coordinator state between iterations. -/
structure IterState where
  twmatrix : Mat
  booksequences : List (List Book)
  alpha : List ℚ

/-- One iteration of the coordinator loop (lines 381–436): possibly rescale
`α` from the current column sums, dispatch the workers on the current
shards, merge their deltas and book lists, and reshuffle-divide for the next
iteration. -/
def coordIteration (numthemes numtopics vocabsize numprocesses : ℕ)
    (alphamean beta : ℚ) (rngOf : ℕ → ℕ → ℚ)
    (shuffle : ℕ → List Book → List Book) (iteration : ℕ)
    (st : IterState) : IterState :=
  let alpha1 := if rescaleTriggered iteration
    then rescaleAlpha ((List.range numtopics).map
        (fun k => (colSum vocabsize st.twmatrix k : ℚ))) alphamean
    else st.alpha
  let results := workerResults numthemes numtopics vocabsize alpha1 beta rngOf
      iteration numprocesses st.booksequences st.twmatrix
  let merged := mergeResults st.twmatrix results
  { twmatrix := merged.2,
    booksequences := shuffledivide (shuffle iteration) merged.1 numprocesses,
    alpha := alpha1 }

def runCoordinator (numthemes numtopics vocabsize numprocesses : ℕ)
    (alphamean beta : ℚ) (rngOf : ℕ → ℕ → ℚ)
    (shuffle : ℕ → List Book → List Book) (numiterations : ℕ)
    (st : IterState) : IterState :=
  (List.range numiterations).foldl
    (fun s i => coordIteration numthemes numtopics vocabsize numprocesses
      alphamean beta rngOf shuffle i s) st

/-- C9: from identical initial state (assignments, shards, `TW`, `α`), with
the same seed-to-stream mapping for the workers (every worker seeds numpy
and Python RNGs from its handed seed before sampling, lines 18–19, and the
per-worker seeds `((s+1)(i+1)) mod 399` are computed deterministically) and
the same shuffle RNG behaviour, two runs of the coordinator end in identical
states — the same final `TW` and the same final assignment vector `c.z` for
every character of every shard (state equality covers both).  Merge order is
fixed: the pool yields results in input order and the fold adds them in that
order, and every other step is a pure function of the state. -/
theorem claim_c9_determinism (numthemes numtopics vocabsize numprocesses : ℕ)
    (alphamean beta : ℚ) (rngOf₁ rngOf₂ : ℕ → ℕ → ℚ)
    (shuffle₁ shuffle₂ : ℕ → List Book → List Book) (numiterations : ℕ)
    (st₁ st₂ : IterState)
    (hr : rngOf₁ = rngOf₂) (hs : shuffle₁ = shuffle₂) (hst : st₁ = st₂) :
    runCoordinator numthemes numtopics vocabsize numprocesses alphamean beta
        rngOf₁ shuffle₁ numiterations st₁
      = runCoordinator numthemes numtopics vocabsize numprocesses alphamean beta
        rngOf₂ shuffle₂ numiterations st₂ := by
  rw [hr, hs, hst]

theorem claim_c9_witness :
    ((fun _ : ℕ => wRand) = (fun _ : ℕ => wRand)
      ∧ (fun (_ : ℕ) (l : List Book) => l) = (fun (_ : ℕ) (l : List Book) => l)
      ∧ (⟨wTW2, [[wBookA]], [1, 1]⟩ : IterState) = ⟨wTW2, [[wBookA]], [1, 1]⟩) ∧
    runCoordinator 1 2 1 1 1 1 (fun _ => wRand) (fun _ l => l) 1
        ⟨wTW2, [[wBookA]], [1, 1]⟩
      = runCoordinator 1 2 1 1 1 1 (fun _ => wRand) (fun _ l => l) 1
        ⟨wTW2, [[wBookA]], [1, 1]⟩ :=
  ⟨⟨rfl, rfl, rfl⟩,
    claim_c9_determinism 1 2 1 1 1 1 (fun _ => wRand) (fun _ => wRand)
      (fun _ l => l) (fun _ l => l) 1 ⟨wTW2, [[wBookA]], [1, 1]⟩
      ⟨wTW2, [[wBookA]], [1, 1]⟩ rfl rfl rfl⟩

/-! ### Claim C2: merge consistency and the audit -/

theorem take_succ_nOcc {α : Type} [DecidableEq α] (l : List α) (n : ℕ)
    (hn : n < l.length) (a d : α) :
    nOcc a (l.take (n + 1))
      = nOcc a (l.take n) + (if l.getD n d = a then 1 else 0) := by
  rw [List.take_succ, nOcc_append]
  congr 1
  rw [List.getElem?_eq_getElem hn]
  simp only [Option.toList_some, nOcc]
  rw [List.getD_eq_getElem l d hn]
  omega

/-- The audit's inner token loop adds exactly the character's token counts. -/
theorem recreate_char_fold (ch : Character)
    (hlens : ch.topicassigns.length = ch.wordtypes.length) :
    ∀ n, n ≤ ch.wordtypes.length → ∀ (m : Mat) (w k : ℕ),
    ((List.range n).foldl
      (fun m'' idx => matAdjust m''
        (ch.wordtypes.getD idx 0) (ch.topicassigns.getD idx 0) 1) m) w k
      = m w k + (nOcc (w, k) ((charPairs ch).take n) : ℤ) := by
  intro n
  induction n with
  | zero =>
    intro _ m w k
    simp [nOcc]
  | succ n ih =>
    intro hn m w k
    rw [foldl_range_succ]
    have hzl : n < (charPairs ch).length := by
      unfold charPairs
      rw [List.length_zip]
      omega
    have htk := take_succ_nOcc (charPairs ch) n hzl (w, k) (0, 0)
    have hgz : (charPairs ch).getD n (0, 0)
        = (ch.wordtypes.getD n 0, ch.topicassigns.getD n 0) := by
      unfold charPairs
      exact getD_zip _ _ _ (by omega) (by omega)
    rw [hgz] at htk
    have hM : ∀ (M : Mat) (a b : ℕ),
        matAdjust M a b 1 w k = M w k + (if w = a ∧ k = b then 1 else 0) := by
      intro M a b
      unfold matAdjust
      split_ifs <;> omega
    rw [hM, ih (by omega), htk]
    simp only [Prod.mk.injEq]
    split_ifs with h1 h2 h2 <;> push_cast <;>
      first
        | omega
        | (exact absurd ⟨h1.1.symm, h1.2.symm⟩ h2)
        | (exact absurd ⟨h2.1.symm, h2.2.symm⟩ h1)

theorem recreate_chars_fold (chars : List Character)
    (hlens : ∀ c ∈ chars, c.topicassigns.length = c.wordtypes.length) :
    ∀ (m : Mat) (w k : ℕ),
    (chars.foldl
      (fun m' ch => (List.range ch.numwords).foldl
        (fun m'' idx => matAdjust m''
          (ch.wordtypes.getD idx 0) (ch.topicassigns.getD idx 0) 1) m') m) w k
      = m w k + ((chars.map (fun c => (charCount c w k : ℤ))).sum) := by
  induction chars with
  | nil =>
    intro m w k
    simp
  | cons c cs ih =>
    intro m w k
    rw [List.foldl_cons,
      ih (fun c' hc' => hlens c' (List.mem_cons_of_mem c hc'))]
    have hc := hlens c (List.mem_cons_self c cs)
    have h1 := recreate_char_fold c hc c.numwords (Nat.le_refl _) m w k
    have h2 : (charPairs c).take c.numwords = charPairs c := by
      apply List.take_of_length_le
      unfold charPairs Character.numwords
      rw [List.length_zip]
      omega
    rw [h2] at h1
    rw [h1]
    unfold charCount
    simp only [List.map, List.sum_cons]
    ring

theorem recreate_books_fold (booklist : List Book)
    (hlens : ∀ b ∈ booklist, ∀ c ∈ b.characters,
      c.topicassigns.length = c.wordtypes.length) :
    ∀ (m : Mat) (w k : ℕ),
    (booklist.foldl
      (fun m b => b.characters.foldl
        (fun m' ch => (List.range ch.numwords).foldl
          (fun m'' idx => matAdjust m''
            (ch.wordtypes.getD idx 0) (ch.topicassigns.getD idx 0) 1) m') m) m) w k
      = m w k + (booksCount booklist w k : ℤ) := by
  induction booklist with
  | nil =>
    intro m w k
    simp [booksCount]
  | cons b bs ih =>
    intro m w k
    rw [List.foldl_cons,
      ih (fun b' hb' c hc => hlens b' (List.mem_cons_of_mem b hb') c hc),
      recreate_chars_fold b.characters (hlens b (List.mem_cons_self b bs)) m w k]
    unfold booksCount bookCount
    simp only [List.map, List.sum_cons]
    push_cast [castSumMap]
    simp only [List.map_map, Function.comp_def]
    ring

/-- The audit rebuild equals the token counts, cell for cell. -/
theorem recreate_eq_booksCount (booklist : List Book)
    (hlens : ∀ b ∈ booklist, ∀ c ∈ b.characters,
      c.topicassigns.length = c.wordtypes.length) :
    ∀ w k, recreate_matrix booklist w k = (booksCount booklist w k : ℤ) := by
  intro w k
  unfold recreate_matrix
  rw [recreate_books_fold booklist hlens (fun _ _ => 0) w k]
  omega

theorem booksCount_append (l₁ l₂ : List Book) (w k : ℕ) :
    booksCount (l₁ ++ l₂) w k = booksCount l₁ w k + booksCount l₂ w k := by
  unfold booksCount
  rw [List.map_append, List.sum_append]

theorem booksCount_join (ll : List (List Book)) (w k : ℕ) :
    booksCount ll.join w k = ((ll.map (fun l => booksCount l w k)).sum) := by
  induction ll with
  | nil => rfl
  | cons l ls ih =>
    rw [show (l :: ls).join = l ++ ls.join from rfl, booksCount_append, ih]
    simp

theorem sumMap_sub {α : Type} (l : List α) (f g : α → ℤ) :
    (l.map (fun x => f x - g x)).sum = (l.map f).sum - (l.map g).sum := by
  induction l with
  | nil => simp
  | cons x xs ih => simp [ih]; ring

theorem mergeResults_fold (results : List PassResult) :
    ∀ (acc : List Book × Mat),
    ((results.foldl
        (fun (acc : List Book × Mat) r =>
          (acc.1 ++ r.books, fun w k => acc.2 w k + r.delta w k)) acc).1
      = acc.1 ++ (results.map (fun r => r.books)).join)
    ∧ ∀ w k, (results.foldl
        (fun (acc : List Book × Mat) r =>
          (acc.1 ++ r.books, fun w k => acc.2 w k + r.delta w k)) acc).2 w k
        = acc.2 w k + ((results.map (fun r => r.delta w k)).sum) := by
  induction results with
  | nil =>
    intro acc
    constructor
    · simp
    · intro w k
      simp
  | cons r rs ih =>
    intro acc
    rw [List.foldl_cons]
    obtain ⟨h1, h2⟩ := ih (acc.1 ++ r.books, fun w k => acc.2 w k + r.delta w k)
    constructor
    · rw [h1]
      simp
    · intro w k
      rw [h2 w k]
      dsimp only
      simp only [List.map, List.sum_cons]
      ring

/-- The merge loop of lines 424–428: the new book list is the concatenation
of the returned shard lists in order, and the new `TW` is the old plus the
sum of all deltas. -/
theorem mergeResults_spec (twmatrix : Mat) (results : List PassResult) :
    ((mergeResults twmatrix results).1 = (results.map (fun r => r.books)).join)
    ∧ ∀ w k, (mergeResults twmatrix results).2 w k
        = twmatrix w k + ((results.map (fun r => r.delta w k)).sum) := by
  unfold mergeResults
  obtain ⟨h1, h2⟩ := mergeResults_fold results ([], twmatrix)
  exact ⟨by rw [h1]; simp, fun w k => h2 w k⟩

theorem audit_of_shape (b b₀ : Book) (h : bookShape b = bookShape b₀) :
    b.totalwords = b₀.totalwords
      ∧ audit_charactercount b = audit_charactercount b₀ := by
  unfold bookShape at h
  simp only [Prod.mk.injEq] at h
  obtain ⟨-, ht, hc⟩ := h
  refine ⟨ht, ?_⟩
  unfold audit_charactercount
  have hmap : ∀ (cs : List Character),
      cs.map (fun c => c.topicassigns.length)
        = (cs.map charShape).map (fun s => s.2.2) := by
    intro cs
    rw [List.map_map]
    rfl
  rw [hmap, hc, ← hmap]

/-- C2: after the coordinator merges all worker deltas
(`TW ← TW + Σ_s ΔTW_s` over the disjoint shards), the matrix that
`recreate_matrix` rebuilds from all token assignments equals the maintained
global `TW` cell for cell, and every merged book's `totalwords` equals the
summed length of its characters' assignment arrays — so the audit's
assertions (lines 247, 249 and 434) all hold.  Stated as the inductive
invariant of one merge: the hypotheses say the global `TW` counted the
tokens of the dispatched shards before the sweep. -/
theorem claim_c2_merge_audit (T K W : ℕ) (alpha : List ℚ) (beta : ℚ)
    (rngOf : ℕ → ℕ → ℚ) (iteration numprocesses : ℕ)
    (booksequences : List (List Book)) (tw : Mat)
    (hK : 0 < K)
    (hP : booksequences.length ≤ numprocesses)
    (hWF : ∀ seq ∈ booksequences, ∀ b ∈ seq, BookWF W K b)
    (htot : ∀ seq ∈ booksequences, ∀ b ∈ seq,
      b.totalwords = audit_charactercount b)
    (hinv : ∀ w k, tw w k = (booksCount booksequences.join w k : ℤ)) :
    (∀ w k,
      recreate_matrix (mergeResults tw (workerResults T K W alpha beta rngOf
          iteration numprocesses booksequences tw)).1 w k
        = (mergeResults tw (workerResults T K W alpha beta rngOf
          iteration numprocesses booksequences tw)).2 w k)
    ∧ (∀ b ∈ (mergeResults tw (workerResults T K W alpha beta rngOf
          iteration numprocesses booksequences tw)).1,
        b.totalwords = audit_charactercount b) := by
  have hseedlen : ((List.range numprocesses).map
      (fun i => ((i + 1) * (iteration + 1)) % 399)).length = numprocesses := by
    simp
  have hresform : workerResults T K W alpha beta rngOf iteration numprocesses
        booksequences tw
      = (booksequences.zip ((List.range numprocesses).map
          (fun i => ((i + 1) * (iteration + 1)) % 399))).map
        (fun p => gibbs_onepass T K W (fun k => alpha.getD k 0) beta rngOf
          p.1 tw p.2) := rfl
  set zipped := booksequences.zip ((List.range numprocesses).map
      (fun i => ((i + 1) * (iteration + 1)) % 399)) with hzipdef
  have hper : ∀ p ∈ zipped,
      ((gibbs_onepass T K W (fun k => alpha.getD k 0) beta rngOf p.1 tw p.2).books.map
          bookShape = p.1.map bookShape)
      ∧ (∀ b ∈ (gibbs_onepass T K W (fun k => alpha.getD k 0) beta rngOf
            p.1 tw p.2).books, BookWF W K b)
      ∧ (∀ w k, (gibbs_onepass T K W (fun k => alpha.getD k 0) beta rngOf
            p.1 tw p.2).delta w k
          = (booksCount (gibbs_onepass T K W (fun k => alpha.getD k 0) beta rngOf
              p.1 tw p.2).books w k : ℤ)
            - (booksCount p.1 w k : ℤ)) := by
    intro p hp
    have hseq : p.1 ∈ booksequences := (List.of_mem_zip hp).1
    obtain ⟨h1, h2, h3, -⟩ := gibbs_onepass_facts W T K (fun k => alpha.getD k 0)
      beta rngOf p.1 tw p.2 hK (hWF p.1 hseq)
    exact ⟨h1, h2, h3⟩
  obtain ⟨hbl0, htw⟩ := mergeResults_spec tw
    (workerResults T K W alpha beta rngOf iteration numprocesses booksequences tw)
  have hbl : (mergeResults tw (workerResults T K W alpha beta rngOf iteration
        numprocesses booksequences tw)).1
      = (((zipped.map (fun p => gibbs_onepass T K W (fun k => alpha.getD k 0)
          beta rngOf p.1 tw p.2)).map (fun r => r.books)).join) := by
    rw [hbl0, hresform]
  have hkey : ∀ w k,
      (((workerResults T K W alpha beta rngOf iteration numprocesses
          booksequences tw).map (fun r => r.delta w k)).sum)
        = (booksCount (((zipped.map (fun p => gibbs_onepass T K W
              (fun k => alpha.getD k 0) beta rngOf p.1 tw p.2)).map
            (fun r => r.books)).join) w k : ℤ)
          - (booksCount booksequences.join w k : ℤ) := by
    intro w k
    rw [hresform, List.map_map]
    have hcongr : zipped.map ((fun r => r.delta w k) ∘ (fun p =>
          gibbs_onepass T K W (fun k => alpha.getD k 0) beta rngOf p.1 tw p.2))
        = zipped.map (fun p =>
            (booksCount (gibbs_onepass T K W (fun k => alpha.getD k 0) beta rngOf
              p.1 tw p.2).books w k : ℤ) - (booksCount p.1 w k : ℤ)) :=
      List.map_congr_left (fun p hp => by
        simp only [Function.comp_apply]
        exact (hper p hp).2.2 w k)
    rw [hcongr, sumMap_sub]
    have hA : (zipped.map (fun p =>
          (booksCount (gibbs_onepass T K W (fun k => alpha.getD k 0) beta rngOf
            p.1 tw p.2).books w k : ℤ))).sum
        = (booksCount (((zipped.map (fun p => gibbs_onepass T K W
              (fun k => alpha.getD k 0) beta rngOf p.1 tw p.2)).map
            (fun r => r.books)).join) w k : ℤ) := by
      rw [booksCount_join, castSumMap, List.map_map, List.map_map]
      rfl
    have hB : (zipped.map (fun p => (booksCount p.1 w k : ℤ))).sum
        = (booksCount booksequences.join w k : ℤ) := by
      rw [booksCount_join, castSumMap]
      have hfst : zipped.map Prod.fst = booksequences :=
        List.map_fst_zip booksequences _ (by rw [hseedlen]; exact hP)
      rw [← hfst, List.map_map]
      rfl
    rw [hA, hB]
  constructor
  · intro w k
    have hlensOut : ∀ b ∈ (mergeResults tw (workerResults T K W alpha beta rngOf
          iteration numprocesses booksequences tw)).1,
        ∀ c ∈ b.characters, c.topicassigns.length = c.wordtypes.length := by
      intro b hb c hc
      rw [hbl] at hb
      obtain ⟨l, hl, hbmem⟩ := List.mem_join.mp hb
      obtain ⟨r, hr, hleq⟩ := List.mem_map.mp hl
      obtain ⟨p, hp, hreq⟩ := List.mem_map.mp hr
      subst hreq
      subst hleq
      exact ((hper p hp).2.1 b hbmem c hc).1
    rw [recreate_eq_booksCount _ hlensOut w k, htw w k, hkey w k, hinv w k, hbl]
    omega
  · intro b hb
    rw [hbl] at hb
    obtain ⟨l, hl, hbmem⟩ := List.mem_join.mp hb
    obtain ⟨r, hr, hleq⟩ := List.mem_map.mp hl
    obtain ⟨p, hp, hreq⟩ := List.mem_map.mp hr
    subst hreq
    subst hleq
    have hshapes := (hper p hp).1
    have hmem2 : bookShape b ∈ (gibbs_onepass T K W (fun k => alpha.getD k 0)
        beta rngOf p.1 tw p.2).books.map bookShape :=
      List.mem_map_of_mem bookShape hbmem
    rw [hshapes] at hmem2
    obtain ⟨b₀, hb₀, hshape_eq⟩ := List.mem_map.mp hmem2
    obtain ⟨ht', hc'⟩ := audit_of_shape b b₀ hshape_eq.symm
    rw [ht', hc']
    exact htot p.1 (List.of_mem_zip hp).1 b₀ hb₀

def wTWc : Mat := fun w k => (booksCount ([[wBookA]] : List (List Book)).join w k : ℤ)

theorem claim_c2_witness :
    ((0 : ℕ) < 2
      ∧ ([[wBookA]] : List (List Book)).length ≤ 1
      ∧ (∀ seq ∈ ([[wBookA]] : List (List Book)), ∀ b ∈ seq, BookWF 1 2 b)
      ∧ (∀ seq ∈ ([[wBookA]] : List (List Book)), ∀ b ∈ seq,
          b.totalwords = audit_charactercount b)
      ∧ (∀ w k, wTWc w k = (booksCount ([[wBookA]] : List (List Book)).join w k : ℤ))) ∧
    ((∀ w k,
      recreate_matrix (mergeResults wTWc (workerResults 1 2 1 [1, 1] 1
          (fun _ => wRand) 0 1 [[wBookA]] wTWc)).1 w k
        = (mergeResults wTWc (workerResults 1 2 1 [1, 1] 1
          (fun _ => wRand) 0 1 [[wBookA]] wTWc)).2 w k)
    ∧ (∀ b ∈ (mergeResults wTWc (workerResults 1 2 1 [1, 1] 1
          (fun _ => wRand) 0 1 [[wBookA]] wTWc)).1,
        b.totalwords = audit_charactercount b)) :=
  ⟨⟨by norm_num, by norm_num,
      by unfold BookWF CharWF; decide,
      by unfold audit_charactercount; decide,
      fun w k => rfl⟩,
    claim_c2_merge_audit 1 2 1 [1, 1] 1 (fun _ => wRand) 0 1 [[wBookA]] wTWc
      (by norm_num) (by norm_num)
      (by unfold BookWF CharWF; decide)
      (by unfold audit_charactercount; decide)
      (fun w k => rfl)⟩
